import Mathlib

/-!
Verification development for the KipDB LSM-tree storage engine.

Shallow embedding of the engine's core data structures and algorithms:
byte-string keys and values, the block codec (prefix compression, varint
framing, CRC32 trailer), `Scope` range tests, the `Version` read path,
the `Cleaner` garbage-collection state machine, the major-compaction
edit emission, the legacy `LsmStore` read/write path and the MVCC
transaction layer.  Each definition is translated from the corresponding
source function; theorems at the end settle the specification claims.
-/

set_option maxRecDepth 10000

namespace KipDB

/-- Bytes are modelled as lists of naturals (each intended to be < 256). -/
abbrev Bytes := List Nat

/-- Comparison of two naturals, mirroring `u8::cmp`. -/
def cmpN (a b : Nat) : Ordering :=
  if a < b then .lt else if b < a then .gt else .eq

/-- Lexicographic comparison of byte strings, mirroring `[u8]::cmp`. -/
def cmpBytes : Bytes → Bytes → Ordering
  | [], [] => .eq
  | [], _ :: _ => .lt
  | _ :: _, [] => .gt
  | a :: as', b :: bs' => (cmpN a b).then (cmpBytes as' bs')

/-- Test `a <= b` on byte strings (`Bytes::le`). -/
def bytesLe (a b : Bytes) : Bool :=
  cmpBytes a b ≠ .gt

/-- Test `a >= b` on byte strings (`Bytes::ge`). -/
def bytesGe (a b : Bytes) : Bool :=
  cmpBytes a b ≠ .lt

/-- Strict `a < b` on byte strings. -/
def bytesLt (a b : Bytes) : Bool :=
  cmpBytes a b = .lt

/-- Minimum of two byte strings under the lexicographic order. -/
def bytesMin (a b : Bytes) : Bytes :=
  if bytesLe a b then a else b

/-- Maximum of two byte strings under the lexicographic order. -/
def bytesMax (a b : Bytes) : Bytes :=
  if bytesGe a b then a else b

/-- Single shift-xor round of the reflected CRC-32 computation
(polynomial `0xEDB88320`), as performed by `crc32fast`. -/
def crc32Round (c : Nat) : Nat :=
  if c % 2 = 1 then Nat.xor (c / 2) 0xEDB88320 else c / 2

/-- Fold one input byte into the running CRC-32 state. -/
def crc32Update (c b : Nat) : Nat :=
  (crc32Round)^[8] (Nat.xor c b)

/-- CRC-32 (IEEE, reflected, init `!0`, final xor `!0`) of a byte string:
the checksum computed by `crc32fast::hash`. -/
def crc32 (l : Bytes) : Nat :=
  Nat.xor (l.foldl crc32Update 0xFFFFFFFF) 0xFFFFFFFF

/-- Little-endian 4-byte encoding of a `u32`, as produced by
`bincode::serialize::<u32>`. -/
def u32le (n : Nat) : Bytes :=
  [n % 256, n / 256 % 256, n / 65536 % 256, n / 16777216 % 256]

/-- Little-endian 4-byte decoding of a `u32`, as performed by
`bincode::deserialize::<u32>` on a 4-byte slice. -/
def leToU32 (l : Bytes) : Nat :=
  l.getD 0 0 + 256 * l.getD 1 0 + 65536 * l.getD 2 0 + 16777216 * l.getD 3 0

/-- Error kinds of the engine (`KernelError` / `KvsError`), restricted to the
variants reachable from the embedded code. -/
inductive KernelError where
  | keyNotFound
  | dataEmpty
  | crcMisMatch
  | levelOver
  | serde
  | io
deriving DecidableEq, Repr

/-- Decidable equality on `Except`, for evaluating concrete results. -/
instance {ε α : Type} [DecidableEq ε] [DecidableEq α] : DecidableEq (Except ε α) :=
  fun x y =>
    match x, y with
    | .ok a, .ok b =>
      if h : a = b then .isTrue (congrArg Except.ok h)
      else .isFalse (fun hc => h (Except.ok.inj hc))
    | .error a, .error b =>
      if h : a = b then .isTrue (congrArg Except.error h)
      else .isFalse (fun hc => h (Except.error.inj hc))
    | .ok _, .error _ => .isFalse (fun hc => Except.noConfusion hc)
    | .error _, .ok _ => .isFalse (fun hc => Except.noConfusion hc)

/-- Loop of the LEB128 (`varuint`) encoder, structurally recursive on a
fuel argument; any fuel at least the value itself is sufficient, as each
iteration divides the value by 128. -/
def writeVarintAux : Nat → Nat → Bytes
  | 0, n => [n]
  | fuel + 1, n =>
    if n < 128 then [n] else (n % 128 + 128) :: writeVarintAux fuel (n / 128)

/-- LEB128 (`varuint`) encoding of a `u32`: 7 data bits per byte,
continuation bit on every byte but the last (`WriteVarint::write_varint`). -/
def writeVarint (n : Nat) : Bytes :=
  writeVarintAux n n

/-- LEB128 decoding (`ReadVarint::read_varint`); fails on a truncated input. -/
def readVarint : Bytes → Except KernelError (Nat × Bytes)
  | [] => .error .io
  | b :: rest =>
    if b < 128 then .ok (b, rest)
    else (readVarint rest).map (fun vr => (b % 128 + 128 * vr.1, vr.2))

/-- Semantics of `std::io::Cursor::read` into a zero-initialised buffer of
size `n`: up to `n` bytes are copied, the rest of the buffer stays zero. -/
def readBytes (n : Nat) (l : Bytes) : Bytes × Bytes :=
  (l.take n ++ List.replicate (n - l.length) 0, l.drop n)

/-- Inclusive key range of one SSTable (`Scope` in `ss_table.rs`):
`start`/`end` keys plus the generation number. -/
structure Scope where
  start : Bytes
  stop : Bytes
  gen : Int
deriving DecidableEq, Repr

/-- Overlap test between two scopes, translated verbatim from
`Scope::meet`: `(self.start <= target.start && self.end >= target.start)
|| (self.start <= target.end && self.end >= target.end)`. -/
def Scope.meet (self target : Scope) : Bool :=
  (bytesLe self.start target.start && bytesGe self.stop target.start)
    || (bytesLe self.start target.stop && bytesGe self.stop target.stop)

/-- Membership test of a key in a scope, translated from
`Scope::meet_with_key`: `start <= key && end >= key`. -/
def Scope.meetWithKey (self : Scope) (key : Bytes) : Bool :=
  bytesLe self.start key && bytesGe self.stop key

/-- Predicate from the specification's words: the inclusive ranges
`[a.start, a.end]` and `[b.start, b.end]` intersect, i.e. some key lies in
both.  For nonempty ranges this is `a.start <= b.end && b.start <= a.end`. -/
def scopesIntersectSpec (a b : Scope) : Bool :=
  bytesLe a.start b.stop && bytesLe b.start a.stop

/-- Fusion of a set of scopes (`Scope::fusion`): smallest start key and
largest end key, gen 0; `DataEmpty` on an empty input. -/
def Scope.fusion (scopes : List Scope) : Except KernelError Scope :=
  match scopes with
  | [] => .error .dataEmpty
  | s :: rest =>
    .ok { start := rest.foldl (fun acc sc => bytesMin acc sc.start) s.start,
          stop := rest.foldl (fun acc sc => bytesMax acc sc.stop) s.stop,
          gen := 0 }

/-- Messages understood by the SSTable `Cleaner` task (`CleanTag`). -/
inductive CleanTag where
  | add (verNum : Nat) (gens : List Int)
  | clean (verNum : Nat)
deriving DecidableEq, Repr

/-- State of the `Cleaner`: the queue `del_gens` of
`(version_num, gens to delete)` pairs, plus the accumulated list of gens
that have been physically removed from the loader and from disk. -/
structure CleanerState where
  delGens : List (Nat × List Int)
  deleted : List Int
deriving DecidableEq, Repr

/-- Index of the first queue entry with the given version number
(`Cleaner::find_index_with_ver_num`). -/
def findIndexWithVerNum (delGens : List (Nat × List Int)) (verNum : Nat) : Option Nat :=
  match delGens with
  | [] => none
  | e :: rest =>
    if e.1 = verNum then some 0
    else (findIndexWithVerNum rest verNum).map (fun i => i + 1)

/-- Append of the transferred gens onto the entry at the given index
(`self.del_gens.get_mut(index - 1)` followed by `append`). -/
def transferGens (gens : List Int) : Nat → List (Nat × List Int) → List (Nat × List Int)
  | _, [] => []
  | 0, e :: rest => (e.1, e.2 ++ gens) :: rest
  | j + 1, e :: rest => e :: transferGens gens j rest

/-- One step of the `Cleaner` message loop (`Cleaner::listen` /
`Cleaner::clean`): `Add` pushes a queue entry; `Clean` locates the entry of
the dropped version and either physically deletes its gens (when it is the
first entry) or transfers them to the preceding entry. -/
def cleanerStep (s : CleanerState) : CleanTag → CleanerState
  | .add vn gens => { s with delGens := s.delGens ++ [(vn, gens)] }
  | .clean vn =>
    match findIndexWithVerNum s.delGens vn with
    | none => s
    | some i =>
      let gens := (s.delGens.getD i (0, [])).2
      let rest := s.delGens.eraseIdx i
      if i = 0 then
        { delGens := rest, deleted := s.deleted ++ gens }
      else
        { delGens := transferGens gens (i - 1) rest, deleted := s.deleted }

/-- Run of the `Cleaner` from the empty initial state over a list of
received messages. -/
def runCleaner (msgs : List CleanTag) : CleanerState :=
  msgs.foldl cleanerStep ⟨[], []⟩

/-- Version numbers of `Add` messages in a trace, in arrival order. -/
def addVerNums (msgs : List CleanTag) : List Nat :=
  msgs.filterMap (fun m => match m with | .add vn _ => some vn | .clean _ => none)

/-- Traces whose `Add` messages carry strictly increasing version numbers,
as produced by `Version::apply` (which increments `version_num` before each
`CleanTag::Add`). -/
def AddsIncreasing (msgs : List CleanTag) : Prop :=
  (addVerNums msgs).Pairwise (· < ·)

instance (msgs : List CleanTag) : Decidable (AddsIncreasing msgs) := by
  unfold AddsIncreasing
  infer_instance

/-- Mutation commands of the legacy store (`CommandData`). -/
inductive CommandData where
  | set (key value : Bytes)
  | remove (key : Bytes)
  | get (key : Bytes)
deriving DecidableEq, Repr

/-- Extraction of the payload of a command (`CommandData::get_value_clone` /
`get_value_owner`): `Some(value)` for a `Set`, `None` otherwise. -/
def CommandData.getValueClone : CommandData → Option Bytes
  | .set _ v => some v
  | _ => none

/-- Lookup in an association list whose earliest entry wins; later inserts
are consed at the front, which models map-overwrite semantics. -/
def assocFind {α : Type} (l : List (Bytes × α)) (k : Bytes) : Option α :=
  (l.find? (fun e => e.1 == k)).map (fun e => e.2)

/-- State of the legacy `LsmStore`: the `MemTable` map, the manifest's
`BTreeMap<u64, SsTable>` held as a list in ascending gen order (which is
exactly the map's iteration order), and the WAL as the list of appended
records.  Each SSTable is modelled by its key→command content. -/
structure LsmStoreState where
  memTable : List (Bytes × CommandData)
  ssTables : List (Nat × List (Bytes × CommandData))
  wal : List CommandData
deriving Repr

/-- Scan of the SSTable map in iteration order (`for (_, ss_table) in
manifest.get_ss_table_map()`): the first table whose `query` hits returns
its command's unpacked value — also when that command is a tombstone. -/
def ssTablesQuery (tables : List (Nat × List (Bytes × CommandData))) (k : Bytes) :
    Option Bytes :=
  match tables with
  | [] => none
  | (_, t) :: rest =>
    match assocFind t k with
    | some cmd => cmd.getValueClone
    | none => ssTablesQuery rest k

/-- Read path of the legacy `LsmStore::get`: the MemTable first, then the
SSTable map in ascending gen order. -/
def lsmGet (s : LsmStoreState) (k : Bytes) : Option Bytes :=
  match assocFind s.memTable k with
  | some cmd => cmd.getValueClone
  | none => ssTablesQuery s.ssTables k

/-- Key of a command (`CommandData::get_key`). -/
def CommandData.getKey : CommandData → Bytes
  | .set k _ => k
  | .remove k => k
  | .get k => k

/-- Double write of `LsmStore::append_cmd_data`: the record goes to the WAL
and the MemTable.  (The threshold-triggered minor compaction is not taken:
the modelled configurations use an unreachable threshold.) -/
def appendCmdData (s : LsmStoreState) (cmd : CommandData) : LsmStoreState :=
  { s with
    wal := s.wal ++ [cmd],
    memTable := (cmd.getKey, cmd) :: s.memTable }

/-- Public `LsmStore::set`. -/
def lsmSet (s : LsmStoreState) (k v : Bytes) : LsmStoreState :=
  appendCmdData s (.set k v)

/-- Public `LsmStore::remove`: a `get` miss fails with `KeyNotFound` before
anything is written; a hit appends a tombstone record. -/
def lsmRemove (s : LsmStoreState) (k : Bytes) :
    Except KernelError Unit × LsmStoreState :=
  match lsmGet s k with
  | some _ => (.ok (), appendCmdData s (.remove k))
  | none => (.error .keyNotFound, s)

/-- Next generation number for a new SSTable: larger than every existing
gen, reflecting the monotonically increasing gen assignment. -/
def nextGen (s : LsmStoreState) : Nat :=
  (s.ssTables.map (fun e => e.1)).foldl max 0 + 1

/-- Modelled from the spec: the minor compaction / flush path
(`Compactor::minor_compaction` of the legacy store, absent from the given
sources).  Per §4.9, the MemTable contents are persisted as one new SSTable
under a fresh (larger) gen — appended at the tail of the ascending map —
and the MemTable is cleared. -/
def lsmFlushSpec (s : LsmStoreState) : LsmStoreState :=
  if s.memTable.isEmpty then s
  else
    { s with
      memTable := [],
      ssTables := s.ssTables ++ [(nextGen s, s.memTable)] }

/-- Read path of `Transaction::get`: the private write buffer's entry is
consulted through `get_value_clone`, falling through to the MemTable at the
captured sequence and then to the captured Version whenever that yields
`None` — also when the buffered entry is a tombstone. -/
def txnGet (buf : Bytes → Option CommandData) (memFind verFind : Bytes → Option Bytes)
    (k : Bytes) : Option Bytes :=
  match (buf k).bind CommandData.getValueClone with
  | some v => some v
  | none =>
    match memFind k with
    | some v => some v
    | none => verFind k

/-- Buffer update of `Transaction::set`. -/
def txnSet (buf : Bytes → Option CommandData) (k v : Bytes) :
    Bytes → Option CommandData :=
  fun k' => if k' = k then some (.set k v) else buf k'

/-- Behaviour of `Transaction::remove`: requires `get` to observe a value,
then buffers a tombstone; otherwise fails with `KeyNotFound`. -/
def txnRemove (buf : Bytes → Option CommandData) (memFind verFind : Bytes → Option Bytes)
    (k : Bytes) : Except KernelError (Bytes → Option CommandData) :=
  match txnGet buf memFind verFind k with
  | some _ => .ok (fun k' => if k' = k then some (.remove k) else buf k')
  | none => .error .keyNotFound

/-- Result of Rust's `slice::binary_search_by`. -/
inductive BinSearchResult where
  | found (idx : Nat)
  | missing (idx : Nat)
deriving DecidableEq, Repr

/-- Loop of `slice::binary_search_by` over `[left, right)`, structurally
recursive on a fuel argument; any fuel exceeding `right - left` is
sufficient, as each iteration shrinks the interval. -/
def binarySearchByAux {α : Type} (f : α → Ordering) (xs : List α) (d : α) :
    Nat → Nat → Nat → BinSearchResult
  | 0, left, _ => .missing left
  | fuel + 1, left, right =>
    if left < right then
      let mid := left + (right - left) / 2
      match f (xs.getD mid d) with
      | .lt => binarySearchByAux f xs d fuel (mid + 1) right
      | .gt => binarySearchByAux f xs d fuel left mid
      | .eq => .found mid
    else .missing left

/-- Rust's `slice::binary_search_by` on a list. -/
def binarySearchBy {α : Type} (f : α → Ordering) (xs : List α) (d : α) : BinSearchResult :=
  binarySearchByAux f xs d (xs.length + 1) 0 xs.length

/-- Read-side model of a `Version`: the seven `level_slice` scope lists and
the shared SSTable loader, each loaded table abstracted by its
`query_with_key` behaviour. -/
structure VersionModel where
  levelSlice : List (List Scope)
  loader : Int → Option (Bytes → Option Bytes)

/-- Translation of `Version::query_meet_index`: binary search of a level's
scopes by `start` key, `unwrap_or_else(|index| index.saturating_sub(1))`. -/
def queryMeetIndex (v : VersionModel) (key : Bytes) (level : Nat) : Nat :=
  match binarySearchBy (fun scope => cmpBytes scope.start key)
      (v.levelSlice.getD level []) ⟨[], [], 0⟩ with
  | .found i => i
  | .missing i => i - 1

/-- Level-0 part of `Version::find_data_for_ss_tables`: scan the level-0
scopes newest-to-oldest (`.iter().rev()`), querying each table whose scope
covers the key, returning the first hit. -/
def level0Scan (v : VersionModel) (key : Bytes) : List Scope → Option Bytes
  | [] => none
  | scope :: rest =>
    if scope.meetWithKey key then
      match v.loader scope.gen with
      | some query =>
        match query key with
        | some value => some value
        | none => level0Scan v key rest
      | none => level0Scan v key rest
    else level0Scan v key rest

/-- Deeper-levels part of `Version::find_data_for_ss_tables` (`for level in
1..7`): locate the single candidate scope by `query_meet_index`; whenever a
scope exists at that offset the function returns that table's query result
directly — also on a miss — and only an empty level advances the loop.
Structurally recursive on a fuel argument; any fuel at least `7 - level`
is sufficient. -/
def levelsScan (v : VersionModel) (key : Bytes) : Nat → Nat → Option Bytes
  | 0, _ => none
  | fuel + 1, level =>
    if level < 7 then
      match (v.levelSlice.getD level []).get? (queryMeetIndex v key level) with
      | some scope =>
        match v.loader scope.gen with
        | some query => query key
        | none => none
      | none => levelsScan v key fuel (level + 1)
    else none

/-- Full read path of `Version::find_data_for_ss_tables`. -/
def findDataForSsTables (v : VersionModel) (key : Bytes) : Option Bytes :=
  match level0Scan v key (v.levelSlice.getD 0 []).reverse with
  | some value => some value
  | none => levelsScan v key 7 1

/-- Version-edit records as used by the compactor
(`VersionEdit::{NewFile, DeleteFile, LastSequenceId}`): `NewFile` carries
the new gens, the target level and the insertion index; `DeleteFile`
carries the gens to drop and the level they are removed from. -/
inductive VersionEdit where
  | deleteFile (gens : List Int) (level : Nat)
  | newFile (gens : List Int) (level : Nat) (index : Nat)
  | lastSequenceId (seq : Int)
deriving DecidableEq, Repr

/-- Compaction-relevant configuration knobs
(`major_threshold_with_sst_size`, `level_sst_magnification`,
`major_select_file_size`). -/
structure CompactConfig where
  majorThresholdWithSstSize : Nat
  levelSstMagnification : Nat
  majorSelectFileSize : Nat
deriving Repr

/-- Compaction-side model of a `Version`: each SSTable is represented by
its `Scope` (which carries the gen); the loader records which gens are
currently present in the SSTable loader map. -/
structure CompactVersion where
  levelSlice : List (List Scope)
  loader : Int → Bool

/-- Threshold predicate `Version::is_threshold_exceeded_major`:
`level_slice[level].len() >= base * magnification^level`. -/
def isThresholdExceededMajor (v : CompactVersion) (cfg : CompactConfig) (level : Nat) : Bool :=
  (v.levelSlice.getD level []).length ≥
    cfg.majorThresholdWithSstSize * cfg.levelSstMagnification ^ level

/-- Selection of the first SSTables of a level
(`Version::get_first_vec_ss_table_with_size`): `None` when the level is
empty, otherwise up to `size` leading tables present in the loader. -/
def getFirstSsTables (v : CompactVersion) (level : Nat) (size : Nat) : Option (List Scope) :=
  let slice := v.levelSlice.getD level []
  if slice.isEmpty then none
  else some ((slice.take size).filter (fun scope => v.loader scope.gen))

/-- Overlap collection `Version::get_meet_scope_ss_tables`: the tables of a
level whose scope meets the target scope and that are present in the
loader. -/
def getMeetScopeSsTables (v : CompactVersion) (level : Nat) (target : Scope) : List Scope :=
  ((v.levelSlice.getD level []).filter (fun scope => scope.meet target)).filter
    (fun scope => v.loader scope.gen)

/-- Index lookup `Version::get_index`: position of a gen inside a level. -/
def getIndex (v : CompactVersion) (level : Nat) (sourceGen : Int) : Option Nat :=
  (v.levelSlice.getD level []).findIdx? (fun scope => scope.gen = sourceGen)

/-- Insertion-index computation `SSTable::find_index_with_level`: the
position of the first lower-level victim, or 0. -/
def findIndexWithLevel (optionFirst : Option Int) (v : CompactVersion) (level : Nat) : Nat :=
  ((optionFirst.bind (getIndex v level)).getD 0)

/-- Loop of the duplicate removal, structurally recursive on a fuel
argument; any fuel at least the list length is sufficient. -/
def dedupKeepFirstAux : Nat → List Int → List Int
  | _, [] => []
  | 0, _ :: _ => []
  | fuel + 1, x :: xs => x :: dedupKeepFirstAux fuel (xs.filter (fun y => y ≠ x))

/-- Duplicate removal keeping the first occurrence of each element. -/
def dedupKeepFirst (l : List Int) : List Int :=
  dedupKeepFirstAux l.length l

/-- Gen collection `SSTable::collect_gen`: the gens of a table list with
duplicates removed, keeping first occurrences (`Itertools::unique`). -/
def collectGen (tables : List Scope) : List Int :=
  dedupKeepFirst (tables.map (fun scope => scope.gen))

/-- Input selection of one major-compaction step
(`Compactor::data_loading_with_level`), reduced to the data that feeds the
emitted version edits: the insertion index and the two delete-gen lists
(`del_gen_l` from the chosen set `A` of level `L` — at level 0 widened by
the same-level overlap scan — and `del_gen_ll` from the overlap set `B`
collected in level `L+1`).  The merge-and-sharding of table contents only
feeds the newly built SSTables, whose fresh gens are supplied externally. -/
def dataLoadingWithLevel (v : CompactVersion) (cfg : CompactConfig) (level : Nat) :
    Except KernelError (Option (Nat × List Int × List Int)) :=
  if level > 5 || !isThresholdExceededMajor v cfg level then .ok none
  else
    match getFirstSsTables v level cfg.majorSelectFileSize with
    | none => .ok none
    | some tablesL =>
      match Scope.fusion tablesL with
      | .error e => .error e
      | .ok scopeL =>
        let tablesLL := getMeetScopeSsTables v (level + 1) scopeL
        let index := findIndexWithLevel ((tablesLL.head?).map (fun scope => scope.gen))
          v (level + 1)
        let tablesL' :=
          if level = 0 then tablesL ++ getMeetScopeSsTables v 0 scopeL else tablesL
        let delGenL := collectGen tablesL'
        let delGenLL := collectGen tablesLL
        .ok (some (index, delGenL, delGenLL))

/-- Loop body of `Compactor::major_compaction` (`while level < 7`): after a
successful selection the three edits are pushed —
`NewFile((new_gens, level + 1), index)`, `DeleteFile((del_gens_l, level))`
and `DeleteFile((del_gens_ll, level))` — and the level advances; the
version itself is only updated by the final `log_and_apply`, so every
iteration reads the same version.  `new_gens` for each level are supplied
by the snowflake gen generator, abstracted as `newGensFor`. -/
def majorCompactionLoop (v : CompactVersion) (cfg : CompactConfig)
    (newGensFor : Nat → List Int) :
    Nat → Nat → List VersionEdit → Except KernelError (List VersionEdit)
  | 0, _, edits => .ok edits
  | fuel + 1, level, edits =>
    if level < 7 then
      match dataLoadingWithLevel v cfg level with
      | .error e => .error e
      | .ok none => .ok edits
      | .ok (some (index, delGenL, delGenLL)) =>
        majorCompactionLoop v cfg newGensFor fuel (level + 1)
          (edits ++ [.newFile (newGensFor level) (level + 1) index,
                     .deleteFile delGenL level,
                     .deleteFile delGenLL level])
    else .ok edits

/-- Entry point `Compactor::major_compaction`: levels above 6 are rejected
with `LevelOver`; the accumulated edit batch is returned for
`log_and_apply`.  The loop fuel 7 exceeds the remaining levels. -/
def majorCompaction (v : CompactVersion) (cfg : CompactConfig)
    (newGensFor : Nat → List Int) (level : Nat) (edits : List VersionEdit) :
    Except KernelError (List VersionEdit) :=
  if level > 6 then .error .levelOver
  else majorCompactionLoop v cfg newGensFor 7 level edits

/-- Data-block value (`Value` in `block.rs`): a stored length and the
optional payload (`None` is a tombstone). -/
structure Value where
  valueLen : Nat
  bytes : Option Bytes
deriving DecidableEq, Repr

instance : Inhabited Value := ⟨⟨0, none⟩⟩

/-- Conversion `From<Option<Vec<u8>>> for Value`: the stored length is the
payload length, 0 for a tombstone. -/
def Value.fromOpt (b : Option Bytes) : Value :=
  ⟨(b.map List.length).getD 0, b⟩

/-- Index-block payload (`Index`): offset and length of one data block. -/
structure BlockIndex where
  offset : Nat
  len : Nat
deriving DecidableEq, Repr

instance : Inhabited BlockIndex := ⟨⟨0, 0⟩⟩

/-- Byte-stream codec of a block item (trait `BlockItem`). -/
class BlockItem (T : Type) where
  encodeItem : T → Bytes
  decodeItem : Bytes → Except KernelError (T × Bytes)

/-- Translation of `impl BlockItem for Value`: encoding writes
`varint(value_len)` followed by the payload bytes when present; decoding
reads the length and materialises a payload only when it is positive. -/
instance valueBlockItem : BlockItem Value where
  encodeItem v := writeVarint v.valueLen ++ v.bytes.getD []
  decodeItem l := do
    let (len, r) ← readVarint l
    if len > 0 then
      let (bs, r') := readBytes len r
      .ok (⟨len, some bs⟩, r')
    else
      .ok (⟨len, none⟩, r)

/-- Translation of `impl BlockItem for Index`: two varints. -/
instance indexBlockItem : BlockItem BlockIndex where
  encodeItem i := writeVarint i.offset ++ writeVarint i.len
  decodeItem l := do
    let (offset, r) ← readVarint l
    let (len, r') ← readVarint r
    .ok (⟨offset, len⟩, r')

/-- Block entry (`Entry<T>`): lengths of the unshared suffix and the shared
prefix, the stored (suffix) key bytes and the item. -/
structure Entry (T : Type) where
  unsharedLen : Nat
  sharedLen : Nat
  key : Bytes
  item : T
deriving DecidableEq, Repr

instance {T : Type} [Inhabited T] : Inhabited (Entry T) := ⟨⟨0, 0, [], default⟩⟩

/-- Serialisation `Entry::encode`:
`varint(unshared_len) | varint(shared_len) | key | item`. -/
def Entry.encode {T : Type} [BlockItem T] (e : Entry T) : Bytes :=
  writeVarint e.unsharedLen ++ writeVarint e.sharedLen ++ e.key ++ BlockItem.encodeItem e.item

/-- Loop of `Entry::decode_with_cursor`: entries are decoded until the
cursor is exhausted and numbered consecutively.  The fuel argument bounds
the iteration count; since every iteration consumes at least one byte, a
fuel of the buffer length always suffices. -/
def decodeEntriesAux (T : Type) [BlockItem T] :
    Nat → Nat → Bytes → Except KernelError (List (Nat × Entry T))
  | _, _, [] => .ok []
  | 0, _, _ :: _ => .error .io
  | fuel + 1, idx, b :: bs => do
    let (u, r1) ← readVarint (b :: bs)
    let (s, r2) ← readVarint r1
    let (key, r3) := readBytes u r2
    let (item, r4) ← BlockItem.decodeItem r3
    let rest ← decodeEntriesAux T fuel (idx + 1) r4
    .ok ((idx, ⟨u, s, key, item⟩) :: rest)

/-- Block (`Block<T>` in `block.rs`): the restart interval and the numbered
entry list. -/
structure Block (T : Type) where
  restartInterval : Nat
  vecEntry : List (Nat × Entry T)
deriving DecidableEq, Repr

/-- Body serialised by `Block::to_raw` before the checksum:
`varint(restart_interval)` followed by all encoded entries. -/
def toRawBody {T : Type} [BlockItem T] (b : Block T) : Bytes :=
  writeVarint b.restartInterval ++ (b.vecEntry.map (fun e => e.2.encode)).flatten

/-- Serialisation `Block::to_raw`: the body followed by the 4-byte
little-endian CRC-32 of the body. -/
def toRaw {T : Type} [BlockItem T] (b : Block T) : Bytes :=
  toRawBody b ++ u32le (crc32 (toRawBody b))

/-- Deserialisation `Block::from_raw`, translated with its inverted guard:
the stored trailer is read from the last 4 bytes, and decoding fails with
`CrcMisMatch` precisely when `crc32fast::hash` of the *whole* buffer
(trailer included) equals the stored trailer; otherwise the body is parsed
as `varint(restart_interval)` followed by the entries. -/
def fromRaw (T : Type) [BlockItem T] (buf : Bytes) : Except KernelError (Block T) :=
  if buf.length < 4 then .error .serde
  else
    let dataLen := buf.length - 4
    let stored := leToU32 (buf.drop dataLen)
    if crc32 buf = stored then .error .crcMisMatch
    else
      match readVarint (buf.take dataLen) with
      | .error e => .error e
      | .ok (itv, r) =>
        match decodeEntriesAux T r.length 0 r with
        | .error e => .error e
        | .ok entries => .ok ⟨itv, entries⟩

/-- Compression modes of the block codec (`CompressType`). -/
inductive CompressType where
  | noCompress
  | lz4
deriving DecidableEq, Repr

/-- External LZ4 codec (the `lz4` crate), abstracted as a pair of byte
transformations. -/
structure Lz4Codec where
  compress : Bytes → Bytes
  decompress : Bytes → Bytes

/-- Serialisation-then-compression `Block::encode`. -/
def Block.encode {T : Type} [BlockItem T] (c : Lz4Codec) (ct : CompressType)
    (b : Block T) : Bytes :=
  match ct with
  | .noCompress => toRaw b
  | .lz4 => c.compress (toRaw b)

/-- Decompression-then-deserialisation `Block::decode`. -/
def Block.decode (T : Type) [BlockItem T] (c : Lz4Codec) (ct : CompressType)
    (buf : Bytes) : Except KernelError (Block T) :=
  match ct with
  | .noCompress => fromRaw T buf
  | .lz4 => fromRaw T (c.decompress buf)

/-- Splitting of a list into consecutive chunks of size `n` (the
`group_by(|i| i / restart_interval)` grouping of `sharding_shared_len`). -/
def chunksOfAux {α : Type} (n : Nat) : Nat → List α → List (List α)
  | _, [] => []
  | 0, _ :: _ => []
  | fuel + 1, x :: xs =>
    if n = 0 then []
    else (x :: xs).take n :: chunksOfAux n fuel ((x :: xs).drop n)

/-- Chunking entry point; the list length is always sufficient fuel for a
positive chunk size. -/
def chunksOf {α : Type} (n : Nat) (l : List α) : List (List α) :=
  chunksOfAux n l.length l

/-- Minimum key length of a group, starting from `usize::MAX` as in
`longest_shared_len`. -/
def minKeyLen (ks : List Bytes) : Nat :=
  ks.foldl (fun m k => min m k.length) (2 ^ 64 - 1)

/-- Common-prefix check `is_common_prefix`: the first `len` bytes of every
key of the group equal those of the first key. -/
def isCommonPre (ks : List Bytes) (len : Nat) : Bool :=
  match ks with
  | [] => true
  | f :: rest => rest.all (fun k => f.take len == k.take len)

/-- Binary-search loop of `longest_shared_len` over candidate prefix
lengths in `[low, high]`, structurally recursive on a fuel argument; any
fuel at least `high - low` is sufficient, as each iteration shrinks the
interval. -/
def lcpLoopAux (ks : List Bytes) : Nat → Nat → Nat → Nat
  | 0, low, _ => low
  | fuel + 1, low, high =>
    if low < high then
      let mid := (high - low + 1) / 2 + low
      if isCommonPre ks mid then lcpLoopAux ks fuel mid high
      else lcpLoopAux ks fuel low (mid - 1)
    else low

/-- Binary search of `longest_shared_len` over `[low, high]`. -/
def lcpLoop (ks : List Bytes) (low high : Nat) : Nat :=
  lcpLoopAux ks (high - low) low high

/-- Longest-common-prefix length of a group of keys
(`longest_shared_len`). -/
def longestSharedLen (ks : List Bytes) : Nat :=
  if ks.isEmpty then 0 else lcpLoop ks 0 (minKeyLen ks)

/-- Per-group shared lengths (`sharding_shared_len`), computed from the
keys only. -/
def shardingSharedLen (ks : List Bytes) (itv : Nat) : List Nat :=
  (chunksOf itv ks).map longestSharedLen

/-- Construction `Block::new`: each entry keeps the suffix of its key after
the group's shared prefix; entries at restart positions (`i % itv = 0`)
store the full key. -/
def blockNew {T : Type} (kvs : List (Bytes × T)) (itv : Nat) : Block T :=
  { restartInterval := itv,
    vecEntry := kvs.enum.map (fun p =>
      (p.1,
       ⟨p.2.1.length - (if p.1 % itv = 0 then 0
          else (shardingSharedLen (kvs.map Prod.fst) itv).getD (p.1 / itv) 0),
        (if p.1 % itv = 0 then 0
          else (shardingSharedLen (kvs.map Prod.fst) itv).getD (p.1 / itv) 0),
        p.2.1.drop (if p.1 % itv = 0 then 0
          else (shardingSharedLen (kvs.map Prod.fst) itv).getD (p.1 / itv) 0),
        p.2.2⟩)) }

/-- Reconstruction `Block::shared_key_prefix`: the first `sharedLen` bytes
of the key stored at the preceding restart position. -/
def sharedKeyPre {T : Type} [Inhabited T] (b : Block T) (index sharedLen : Nat) : Bytes :=
  ((b.vecEntry.getD (index - index % b.restartInterval) (0, default)).2.key).take sharedLen

/-- Comparator of `Block::binary_search`: for a prefix-compressed entry the
requested key is compared piecewise against the reconstructed shared prefix
and the stored suffix; the result is reversed (`Ordering::reverse`). -/
def blockCompareAt {T : Type} [Inhabited T] (b : Block T) (key : Bytes)
    (p : Nat × Entry T) : Ordering :=
  (if p.2.sharedLen > 0 then
    let s := min p.2.sharedLen key.length
    (cmpBytes (key.take s) (sharedKeyPre b p.1 s)).then
      (cmpBytes (key.drop s) p.2.key)
  else cmpBytes key p.2.key).swap

/-- Search `Block::binary_search` over the entry list. -/
def Block.binarySearch {T : Type} [Inhabited T] (b : Block T) (key : Bytes) :
    BinSearchResult :=
  binarySearchBy (blockCompareAt b key) b.vecEntry (0, default)

/-- Point lookup `Block::<Value>::find`: on a successful search the found
entry's payload is returned (which is `None` for a tombstone). -/
def Block.find (b : Block Value) (key : Bytes) : Option Bytes :=
  match b.binarySearch key with
  | .found i => (b.vecEntry.getD i (0, default)).2.item.bytes
  | .missing _ => none

/-- Lookup `Block::find_with_upper`: the item at the found index, or at the
insertion position on a miss. -/
def Block.findWithUpper {T : Type} [Inhabited T] (b : Block T) (key : Bytes) : T :=
  match b.binarySearch key with
  | .found i => (b.vecEntry.getD i (0, default)).2.item
  | .missing i => (b.vecEntry.getD i (0, default)).2.item

/-- Data block built from a key/optional-value sequence, as
`SSTable::create_for_mem_table` feeds the builder: every value goes through
`Value::from`. -/
def mkValueBlock (kvs : List (Bytes × Option Bytes)) (itv : Nat) : Block Value :=
  blockNew (kvs.map (fun p => (p.1, Value.fromOpt p.2))) itv

/-- Replacement of every stored empty-string value by a tombstone. -/
def tombstoneEmpties (kvs : List (Bytes × Option Bytes)) : List (Bytes × Option Bytes) :=
  kvs.map (fun p => (p.1, if p.2 = some [] then none else p.2))

/-- Strict ascending key order of a key/value sequence, the precondition
asserted by `BlockBuf::add`. -/
def StrictKeys {α : Type} (kvs : List (Bytes × α)) : Prop :=
  kvs.Pairwise (fun a b => bytesLt a.1 b.1)

/-- Well-formedness of byte strings: every element is an actual byte. -/
def ByteWF (l : Bytes) : Prop :=
  ∀ x ∈ l, x < 256

/-- Value produced by decoding: the stored length matches the payload. -/
def ValueWF (v : Value) : Prop :=
  match v.bytes with
  | some bs => v.valueLen = bs.length
  | none => v.valueLen = 0

/-- Entry whose stored key length agrees with `unshared_len` and whose item
is well-formed. -/
def EntryWF (e : Entry Value) : Prop :=
  e.key.length = e.unsharedLen ∧ ValueWF e.item

/-- Collapse performed by one decode of a `Value`: a zero stored length
always reads back as a tombstone. -/
def collapseValue (v : Value) : Value :=
  if v.valueLen = 0 then ⟨0, none⟩ else v

/-- Collapse of a whole entry. -/
def collapseEntry (e : Entry Value) : Entry Value :=
  { e with item := collapseValue e.item }

/-- Closed form of the entry built by `Block::new` at one position. -/
def entrySpec (lens : List Nat) (itv : Nat) (p : Nat × (Bytes × Option Bytes)) :
    Entry Value :=
  ⟨p.2.1.length - (if p.1 % itv = 0 then 0 else lens.getD (p.1 / itv) 0),
   if p.1 % itv = 0 then 0 else lens.getD (p.1 / itv) 0,
   p.2.1.drop (if p.1 % itv = 0 then 0 else lens.getD (p.1 / itv) 0),
   Value.fromOpt p.2.2⟩

instance (kvs : List (Bytes × Option Bytes)) : Decidable (StrictKeys kvs) := by
  unfold StrictKeys
  infer_instance

theorem readVarint_writeVarintAux :
    ∀ (fuel n : Nat) (rest : Bytes), n ≤ fuel →
      readVarint (writeVarintAux fuel n ++ rest) = .ok (n, rest) := by
  intro fuel
  induction fuel with
  | zero =>
    intro n rest h
    have : n = 0 := by omega
    subst this
    simp [writeVarintAux, readVarint]
  | succ fuel ih =>
    intro n rest h
    by_cases hn : n < 128
    · simp [writeVarintAux, hn, readVarint]
    · have hd : n / 128 ≤ fuel := by
        have := Nat.div_lt_self (by omega : 0 < n) (by omega : 1 < 128)
        omega
      have hb : ¬ (n % 128 + 128 < 128) := by omega
      simp only [writeVarintAux, if_neg hn, List.cons_append, readVarint, if_neg hb,
        ih (n / 128) rest hd, Except.map]
      have heq : (n % 128 + 128) % 128 + 128 * (n / 128) = n := by omega
      rw [heq]

theorem readVarint_writeVarint (n : Nat) (rest : Bytes) :
    readVarint (writeVarint n ++ rest) = .ok (n, rest) :=
  readVarint_writeVarintAux n n rest (Nat.le_refl n)

theorem writeVarintAux_lt :
    ∀ (fuel n : Nat), n ≤ fuel → ∀ x ∈ writeVarintAux fuel n, x < 256 := by
  intro fuel
  induction fuel with
  | zero =>
    intro n h x hx
    have : n = 0 := by omega
    subst this
    simp [writeVarintAux] at hx
    omega
  | succ fuel ih =>
    intro n h x hx
    by_cases hn : n < 128
    · simp [writeVarintAux, hn] at hx
      omega
    · simp only [writeVarintAux, if_neg hn, List.mem_cons] at hx
      rcases hx with rfl | hx
      · omega
      · exact ih (n / 128) (by
          have := Nat.div_lt_self (by omega : 0 < n) (by omega : 1 < 128)
          omega) x hx

theorem writeVarint_lt (n : Nat) : ∀ x ∈ writeVarint n, x < 256 :=
  writeVarintAux_lt n n (Nat.le_refl n)

theorem except_bind_ok {ε α β : Type} (a : α) (f : α → Except ε β) :
    (Except.ok a : Except ε α) >>= f = f a :=
  rfl

theorem decodeItem_encodeItem_value (v : Value) (rest : Bytes) (h : ValueWF v) :
    @BlockItem.decodeItem Value valueBlockItem (@BlockItem.encodeItem Value valueBlockItem v ++ rest) =
      .ok (collapseValue v, rest) := by
  cases v with
  | mk len bytes =>
    cases bytes with
    | none =>
      have hlen : len = 0 := h
      subst hlen
      rfl
    | some bs =>
      have hlen : len = bs.length := h
      by_cases h0 : len = 0
      · subst h0
        have hbs : bs = [] := List.length_eq_zero.mp hlen.symm
        subst hbs
        rfl
      · have henc : @BlockItem.encodeItem Value valueBlockItem ⟨len, some bs⟩ ++ rest =
            writeVarint len ++ (bs ++ rest) := by
          simp [valueBlockItem]
        rw [henc]
        show (do
            let lr ← readVarint (writeVarint len ++ (bs ++ rest))
            if lr.1 > 0 then
              Except.ok ((⟨lr.1, some (readBytes lr.1 lr.2).1⟩ : Value), (readBytes lr.1 lr.2).2)
            else
              Except.ok ((⟨lr.1, none⟩ : Value), lr.2)) = .ok (collapseValue ⟨len, some bs⟩, rest)
        rw [readVarint_writeVarint, except_bind_ok]
        have hkey : readBytes len (bs ++ rest) = (bs, rest) := by
          simp only [readBytes]
          rw [List.take_left' hlen.symm, List.drop_left' hlen.symm]
          have hpad : len - (bs ++ rest).length = 0 := by
            simp only [List.length_append]
            omega
          rw [hpad]
          simp
        simp only [if_pos (by omega : len > 0), hkey]
        simp [collapseValue, h0]

theorem entryWF_encode_length (e : Entry Value) :
    1 ≤ (Entry.encode e).length := by
  have : writeVarintAux e.unsharedLen e.unsharedLen ≠ [] := by
    cases h : e.unsharedLen with
    | zero => simp [writeVarintAux]
    | succ m =>
      simp only [writeVarintAux]
      split <;> simp
  simp only [Entry.encode, writeVarint, List.length_append]
  cases hw : writeVarintAux e.unsharedLen e.unsharedLen with
  | nil => exact absurd hw this
  | cons a l => simp only [List.length_cons]; omega

theorem writeVarint_ne_nil (n : Nat) : writeVarint n ≠ [] := by
  unfold writeVarint
  cases n with
  | zero => simp [writeVarintAux]
  | succ m =>
    simp only [writeVarintAux]
    split <;> simp

theorem decodeEntriesAux_cons (fuel idx : Nat) (buf : Bytes) (hne : buf ≠ []) :
    decodeEntriesAux Value (fuel + 1) idx buf = (do
      let ur ← readVarint buf
      let sr ← readVarint ur.2
      let (item, r4) ← @BlockItem.decodeItem Value valueBlockItem (readBytes ur.1 sr.2).2
      let rest ← decodeEntriesAux Value fuel (idx + 1) r4
      Except.ok ((idx, ⟨ur.1, sr.1, (readBytes ur.1 sr.2).1, item⟩) :: rest)) := by
  cases buf with
  | nil => exact absurd rfl hne
  | cons b bs => rfl

theorem decodeEntriesAux_flatten :
    ∀ (es : List (Entry Value)) (idx fuel : Nat),
      (∀ e ∈ es, EntryWF e) →
      ((es.map Entry.encode).flatten).length ≤ fuel →
      decodeEntriesAux Value fuel idx ((es.map Entry.encode).flatten) =
        .ok (List.enumFrom idx (es.map collapseEntry)) := by
  intro es
  induction es with
  | nil =>
    intro idx fuel _ _
    cases fuel <;> simp [decodeEntriesAux]
  | cons e rest ih =>
    intro idx fuel hwf hfuel
    have hewf : EntryWF e := hwf e (List.mem_cons_self _ _)
    have hstream : (((e :: rest).map Entry.encode).flatten) =
        writeVarint e.unsharedLen ++ (writeVarint e.sharedLen ++ (e.key ++
          (@BlockItem.encodeItem Value valueBlockItem e.item ++
            ((rest.map Entry.encode).flatten)))) := by
      simp [Entry.encode, List.append_assoc]
    have hlen1 : 1 ≤ (Entry.encode e).length := entryWF_encode_length e
    have hlenstream : ((e :: rest).map Entry.encode).flatten.length =
        (Entry.encode e).length + ((rest.map Entry.encode).flatten).length := by
      simp
    cases fuel with
    | zero => omega
    | succ fuel =>
      have hne : (((e :: rest).map Entry.encode).flatten) ≠ [] := by
        rw [hstream]
        cases hw : writeVarint e.unsharedLen with
        | nil => exact absurd hw (writeVarint_ne_nil _)
        | cons a l => simp
      rw [decodeEntriesAux_cons fuel idx _ hne, hstream]
      have hkey : readBytes e.unsharedLen (e.key ++
          (@BlockItem.encodeItem Value valueBlockItem e.item ++
            ((rest.map Entry.encode).flatten))) =
          (e.key, @BlockItem.encodeItem Value valueBlockItem e.item ++
            ((rest.map Entry.encode).flatten)) := by
        have hk : e.key.length = e.unsharedLen := hewf.1
        simp only [readBytes]
        rw [List.take_left' hewf.1, List.drop_left' hewf.1]
        have hpad : e.unsharedLen -
            (e.key ++ (@BlockItem.encodeItem Value valueBlockItem e.item ++
              ((rest.map Entry.encode).flatten))).length = 0 := by
          simp only [List.length_append]
          omega
        rw [hpad]
        simp
      simp only [readVarint_writeVarint, except_bind_ok, hkey,
        decodeItem_encodeItem_value e.item ((rest.map Entry.encode).flatten) hewf.2,
        ih (idx + 1) fuel (fun x hx => hwf x (List.mem_cons_of_mem _ hx)) (by omega)]
      simp [collapseEntry, List.enumFrom_cons]

theorem crc32Round_lt (c : Nat) (h : c < 2 ^ 32) : crc32Round c < 2 ^ 32 := by
  unfold crc32Round
  split
  · exact Nat.xor_lt_two_pow (by omega) (by norm_num)
  · omega

theorem crc32Round_iterate_lt (n c : Nat) (h : c < 2 ^ 32) :
    (crc32Round)^[n] c < 2 ^ 32 := by
  induction n generalizing c with
  | zero => simpa using h
  | succ n ih =>
    rw [Function.iterate_succ_apply]
    exact ih _ (crc32Round_lt c h)

theorem crc32Update_lt (c b : Nat) (hc : c < 2 ^ 32) (hb : b < 256) :
    crc32Update c b < 2 ^ 32 := by
  unfold crc32Update
  exact crc32Round_iterate_lt 8 _ (Nat.xor_lt_two_pow hc (by omega))

theorem crc32_lt (l : Bytes) (h : ∀ x ∈ l, x < 256) : crc32 l < 2 ^ 32 := by
  unfold crc32
  have hfold : ∀ (l' : Bytes) (init : Nat), (∀ x ∈ l', x < 256) → init < 2 ^ 32 →
      l'.foldl crc32Update init < 2 ^ 32 := by
    intro l'
    induction l' with
    | nil => intro init _ hi; simpa using hi
    | cons x xs ih =>
      intro init hl hi
      rw [List.foldl_cons]
      exact ih _ (fun y hy => hl y (List.mem_cons_of_mem _ hy))
        (crc32Update_lt init x hi (hl x (List.mem_cons_self _ _)))
  exact Nat.xor_lt_two_pow (hfold l 0xFFFFFFFF h (by norm_num)) (by norm_num)

theorem leToU32_u32le (c : Nat) (h : c < 2 ^ 32) : leToU32 (u32le c) = c := by
  have hred : leToU32 (u32le c) = c % 256 + 256 * (c / 256 % 256) +
      65536 * (c / 65536 % 256) + 16777216 * (c / 16777216 % 256) := rfl
  rw [hred]
  omega

theorem fromRaw_toRaw_value (b : Block Value)
    (hwf : ∀ p ∈ b.vecEntry, EntryWF p.2)
    (hbytes : ∀ x ∈ toRawBody b, x < 256)
    (hguard : crc32 (toRaw b) ≠ crc32 (toRawBody b)) :
    fromRaw Value (toRaw b) =
      .ok ⟨b.restartInterval,
        List.enumFrom 0 ((b.vecEntry.map Prod.snd).map collapseEntry)⟩ := by
  have hc := crc32_lt (toRawBody b) hbytes
  have hlen : (toRaw b).length = (toRawBody b).length + 4 := by
    simp [toRaw, u32le]
  have hnot4 : ¬ (toRaw b).length < 4 := by omega
  have hdrop : (toRaw b).drop ((toRaw b).length - 4) = u32le (crc32 (toRawBody b)) := by
    rw [hlen, Nat.add_sub_cancel]
    exact List.drop_left' rfl
  have htake : (toRaw b).take ((toRaw b).length - 4) = toRawBody b := by
    rw [hlen, Nat.add_sub_cancel]
    exact List.take_left' rfl
  have hstored : leToU32 ((toRaw b).drop ((toRaw b).length - 4)) =
      crc32 (toRawBody b) := by
    rw [hdrop]
    exact leToU32_u32le _ hc
  have hwf' : ∀ e ∈ b.vecEntry.map Prod.snd, EntryWF e := by
    intro e he
    obtain ⟨p, hp, rfl⟩ := List.mem_map.mp he
    exact hwf p hp
  have hbody : toRawBody b = writeVarint b.restartInterval ++
      ((b.vecEntry.map Prod.snd).map Entry.encode).flatten := by
    rw [List.map_map]
    rfl
  have hguard' : crc32 (toRaw b) ≠ crc32 (writeVarint b.restartInterval ++
      ((b.vecEntry.map Prod.snd).map Entry.encode).flatten) := by
    rw [← hbody]
    exact hguard
  simp only [fromRaw, if_neg hnot4, hstored, htake, hbody, if_neg hguard',
    readVarint_writeVarint,
    decodeEntriesAux_flatten (b.vecEntry.map Prod.snd) 0 _ hwf' (Nat.le_refl _)]

theorem snd_mem_of_mem_enumFrom {α : Type} :
    ∀ (l : List α) (n : Nat) (p : Nat × α), p ∈ List.enumFrom n l → p.2 ∈ l := by
  intro l
  induction l with
  | nil => intro n p hp; simp at hp
  | cons x xs ih =>
    intro n p hp
    rw [List.enumFrom_cons, List.mem_cons] at hp
    rcases hp with rfl | hp
    · simp
    · exact List.mem_cons_of_mem _ (ih (n + 1) p hp)

theorem enumFrom_map_elim {α β : Type} (g : Nat × α → β) :
    ∀ (l : List α) (n : Nat),
      List.enumFrom n ((List.enumFrom n l).map g) =
        (List.enumFrom n l).map (fun p => (p.1, g p)) := by
  intro l
  induction l with
  | nil => intro n; simp
  | cons x xs ih =>
    intro n
    simp only [List.enumFrom_cons, List.map_cons]
    rw [ih (n + 1)]

theorem collapse_fromOpt (ob : Option Bytes) :
    collapseValue (Value.fromOpt ob) =
      Value.fromOpt (if ob = some [] then none else ob) := by
  cases ob with
  | none => rfl
  | some v =>
    cases v with
    | nil => rfl
    | cons x xs => simp [collapseValue, Value.fromOpt]

theorem valueWF_fromOpt (ob : Option Bytes) : ValueWF (Value.fromOpt ob) := by
  cases ob <;> simp [ValueWF, Value.fromOpt]

theorem mkValueBlock_vecEntry (kvs : List (Bytes × Option Bytes)) (itv : Nat) :
    (mkValueBlock kvs itv).vecEntry =
      kvs.enum.map (fun p =>
        (p.1, entrySpec (shardingSharedLen (kvs.map Prod.fst) itv) itv p)) := by
  have hkeys : (kvs.map (fun p => (p.1, Value.fromOpt p.2))).map Prod.fst =
      kvs.map Prod.fst := by
    rw [List.map_map]
    rfl
  simp only [mkValueBlock, blockNew, entrySpec, hkeys, List.enum_map, List.map_map]
  rfl

theorem mkValueBlock_entryWF (kvs : List (Bytes × Option Bytes)) (itv : Nat) :
    ∀ p ∈ (mkValueBlock kvs itv).vecEntry, EntryWF p.2 := by
  rw [mkValueBlock_vecEntry]
  intro p hp
  obtain ⟨q, _, rfl⟩ := List.mem_map.mp hp
  exact ⟨by simp [entrySpec], valueWF_fromOpt q.2.2⟩

theorem mkValueBlock_decoded_vecEntry (kvs : List (Bytes × Option Bytes)) (itv : Nat) :
    List.enumFrom 0 (((mkValueBlock kvs itv).vecEntry.map Prod.snd).map collapseEntry) =
      (mkValueBlock (tombstoneEmpties kvs) itv).vecEntry := by
  have hkeys2 : (tombstoneEmpties kvs).map Prod.fst = kvs.map Prod.fst := by
    unfold tombstoneEmpties
    rw [List.map_map]
    rfl
  have hkeys2' : List.map (Prod.fst ∘ fun p : Bytes × Option Bytes =>
      (p.1, if p.2 = some [] then none else p.2)) kvs = List.map Prod.fst kvs := by
    apply List.map_congr_left
    intro p _
    rfl
  rw [mkValueBlock_vecEntry kvs itv, mkValueBlock_vecEntry (tombstoneEmpties kvs) itv]
  simp only [hkeys2, List.map_map, tombstoneEmpties, List.enum, hkeys2']
  conv_rhs => rw [List.enumFrom_map]
  rw [enumFrom_map_elim]
  simp only [List.map_map]
  apply List.map_congr_left
  intro p _
  simp only [Function.comp, Prod.map, id, entrySpec, collapseEntry, collapse_fromOpt]

theorem toRawBody_bytes_lt (kvs : List (Bytes × Option Bytes)) (itv : Nat)
    (hb : ∀ p ∈ kvs, (∀ x ∈ p.1, x < 256) ∧ (∀ x ∈ p.2.getD [], x < 256)) :
    ∀ x ∈ toRawBody (mkValueBlock kvs itv), x < 256 := by
  intro x hx
  unfold toRawBody at hx
  rw [List.mem_append] at hx
  rcases hx with hx | hx
  · exact writeVarint_lt _ x hx
  · rw [List.mem_flatten] at hx
    obtain ⟨sub, hsub, hxsub⟩ := hx
    rw [List.mem_map] at hsub
    obtain ⟨p, hp, rfl⟩ := hsub
    rw [mkValueBlock_vecEntry] at hp
    obtain ⟨q, hq, rfl⟩ := List.mem_map.mp hp
    have hq2 : q.2 ∈ kvs := snd_mem_of_mem_enumFrom kvs 0 q hq
    obtain ⟨hk, hv⟩ := hb q.2 hq2
    simp only [Entry.encode, entrySpec, List.mem_append] at hxsub
    rcases hxsub with ((hx | hx) | hx) | hx
    · exact writeVarint_lt _ x hx
    · exact writeVarint_lt _ x hx
    · exact hk x (List.mem_of_mem_drop hx)
    · have henc : @BlockItem.encodeItem Value valueBlockItem (Value.fromOpt q.2.2) =
          writeVarint (Value.fromOpt q.2.2).valueLen ++ q.2.2.getD [] := by
        cases q.2.2 <;> rfl
      rw [henc, List.mem_append] at hx
      rcases hx with hx | hx
      · exact writeVarint_lt _ x hx
      · exact hv x hx

theorem mkValueBlock_decode (kvs : List (Bytes × Option Bytes)) (itv : Nat)
    (hb : ∀ p ∈ kvs, (∀ x ∈ p.1, x < 256) ∧ (∀ x ∈ p.2.getD [], x < 256))
    (hguard : crc32 (toRaw (mkValueBlock kvs itv)) ≠
      crc32 (toRawBody (mkValueBlock kvs itv))) :
    fromRaw Value (toRaw (mkValueBlock kvs itv)) =
      .ok (mkValueBlock (tombstoneEmpties kvs) itv) := by
  rw [fromRaw_toRaw_value (mkValueBlock kvs itv) (mkValueBlock_entryWF kvs itv)
    (toRawBody_bytes_lt kvs itv hb) hguard]
  rw [mkValueBlock_decoded_vecEntry]
  rfl

theorem cmpN_self (a : Nat) : cmpN a a = .eq := by
  simp [cmpN]

theorem cmpN_eq_iff (a b : Nat) : cmpN a b = .eq ↔ a = b := by
  rcases Nat.lt_trichotomy a b with h | h | h
  · simp only [cmpN, if_pos h]
    constructor
    · intro hc
      exact absurd hc (by decide)
    · intro hc
      omega
  · subst h
    simp [cmpN]
  · simp only [cmpN, if_neg (by omega : ¬ a < b), if_pos h]
    constructor
    · intro hc
      exact absurd hc (by decide)
    · intro hc
      omega

theorem ordering_then_eq_iff (a b : Ordering) :
    a.then b = .eq ↔ a = .eq ∧ b = .eq := by
  cases a <;> simp [Ordering.then]

theorem ordering_swap_eq_iff (o : Ordering) : o.swap = .eq ↔ o = .eq := by
  cases o <;> simp [Ordering.swap]

theorem cmpBytes_eq_iff : ∀ (a b : Bytes), cmpBytes a b = .eq ↔ a = b := by
  intro a
  induction a with
  | nil =>
    intro b
    cases b <;> simp [cmpBytes]
  | cons x xs ih =>
    intro b
    cases b with
    | nil => simp [cmpBytes]
    | cons y ys =>
      simp only [cmpBytes, ordering_then_eq_iff, cmpN_eq_iff, ih ys, List.cons.injEq]

theorem cmpBytes_self (a : Bytes) : cmpBytes a a = .eq :=
  (cmpBytes_eq_iff a a).mpr rfl

theorem cmpN_symm (a b : Nat) : cmpN b a = (cmpN a b).swap := by
  unfold cmpN
  rcases Nat.lt_trichotomy a b with h | h | h <;>
    simp [Nat.not_lt_of_lt, h, Ordering.swap]

theorem cmpBytes_symm : ∀ (a b : Bytes), cmpBytes b a = (cmpBytes a b).swap := by
  intro a
  induction a with
  | nil =>
    intro b
    cases b <;> simp [cmpBytes, Ordering.swap]
  | cons x xs ih =>
    intro b
    cases b with
    | nil => simp [cmpBytes, Ordering.swap]
    | cons y ys =>
      show (cmpN y x).then (cmpBytes ys xs) = ((cmpN x y).then (cmpBytes xs ys)).swap
      rw [cmpN_symm x y, ih ys]
      cases cmpN x y <;> cases cmpBytes xs ys <;> rfl

theorem cmpBytes_take_self : ∀ (l : Bytes) (m : Nat), cmpBytes (l.take m) l ≠ .gt := by
  intro l
  induction l with
  | nil =>
    intro m
    simp [cmpBytes]
  | cons x xs ih =>
    intro m
    cases m with
    | zero => simp [cmpBytes]
    | succ m =>
      simp only [List.take_cons, cmpBytes, cmpN_self, Ordering.then]
      exact ih m

theorem enumFrom_get? {α : Type} :
    ∀ (l : List α) (n i : Nat),
      (List.enumFrom n l).get? i = (l.get? i).map (fun x => (n + i, x)) := by
  intro l
  induction l with
  | nil => intro n i; simp
  | cons x xs ih =>
    intro n i
    cases i with
    | zero => simp
    | succ i =>
      simp only [List.enumFrom_cons, List.get?]
      rw [ih (n + 1) i]
      have : n + 1 + i = n + (i + 1) := by omega
      rw [this]

theorem chunksOfAux_getD {α : Type} (n : Nat) (hn : 0 < n) :
    ∀ (fuel : Nat) (l : List α) (g : Nat), l.length ≤ fuel →
      (chunksOfAux n fuel l).getD g [] = (l.drop (g * n)).take n := by
  intro fuel
  induction fuel with
  | zero =>
    intro l g hl
    cases l with
    | nil => simp [chunksOfAux]
    | cons x xs => simp at hl
  | succ fuel ih =>
    intro l g hl
    cases l with
    | nil => simp [chunksOfAux]
    | cons x xs =>
      simp only [chunksOfAux, if_neg (by omega : ¬ n = 0)]
      cases g with
      | zero => simp
      | succ g =>
        simp only [List.getD_cons_succ]
        rw [ih ((x :: xs).drop n) g
          (by simp only [List.length_drop, List.length_cons] at hl ⊢; omega)]
        rw [List.drop_drop]
        have heq : n + g * n = (g + 1) * n := by ring
        rw [heq]

theorem chunksOf_getD {α : Type} (n : Nat) (hn : 0 < n) (l : List α) (g : Nat) :
    (chunksOf n l).getD g [] = (l.drop (g * n)).take n :=
  chunksOfAux_getD n hn l.length l g (Nat.le_refl _)

theorem foldl_min_le_init (l : List Bytes) :
    ∀ (init : Nat), l.foldl (fun m k => min m k.length) init ≤ init := by
  induction l with
  | nil => intro init; simp
  | cons x xs ih =>
    intro init
    calc (x :: xs).foldl (fun m k => min m k.length) init
        = xs.foldl (fun m k => min m k.length) (min init x.length) := by simp
      _ ≤ min init x.length := ih _
      _ ≤ init := Nat.min_le_left _ _

theorem minKeyLen_le (ks : List Bytes) :
    ∀ k ∈ ks, minKeyLen ks ≤ k.length := by
  unfold minKeyLen
  suffices h : ∀ (init : Nat), ∀ k ∈ ks, ks.foldl (fun m k => min m k.length) init ≤ k.length by
    exact h _
  induction ks with
  | nil => intro init k hk; simp at hk
  | cons x xs ih =>
    intro init k hk
    rw [List.mem_cons] at hk
    rcases hk with rfl | hk
    · calc (k :: xs).foldl (fun m k => min m k.length) init
          = xs.foldl (fun m k => min m k.length) (min init k.length) := by simp
        _ ≤ min init k.length := foldl_min_le_init xs _
        _ ≤ k.length := Nat.min_le_right _ _
    · simpa using ih (min init x.length) k hk

theorem isCommonPre_spec (f : Bytes) (rest : List Bytes) (len : Nat)
    (h : isCommonPre (f :: rest) len = true) :
    ∀ k ∈ f :: rest, f.take len = k.take len := by
  intro k hk
  rw [List.mem_cons] at hk
  rcases hk with rfl | hk
  · rfl
  · simp only [isCommonPre, List.all_eq_true] at h
    exact beq_iff_eq.mp (h k hk)

theorem isCommonPre_zero (ks : List Bytes) : isCommonPre ks 0 = true := by
  cases ks with
  | nil => rfl
  | cons f rest => simp [isCommonPre]

theorem lcpLoopAux_bounds (ks : List Bytes) :
    ∀ (fuel low high : Nat), low ≤ high →
      low ≤ lcpLoopAux ks fuel low high ∧ lcpLoopAux ks fuel low high ≤ high := by
  intro fuel
  induction fuel with
  | zero => intro low high h; simp [lcpLoopAux]; omega
  | succ fuel ih =>
    intro low high h
    by_cases hlt : low < high
    · simp only [lcpLoopAux, if_pos hlt]
      split
      · have := ih ((high - low + 1) / 2 + low) high (by omega)
        omega
      · have := ih low ((high - low + 1) / 2 + low - 1) (by omega)
        omega
    · simp [lcpLoopAux, hlt]
      omega

theorem lcpLoopAux_common (ks : List Bytes) :
    ∀ (fuel low high : Nat), isCommonPre ks low = true →
      isCommonPre ks (lcpLoopAux ks fuel low high) = true := by
  intro fuel
  induction fuel with
  | zero => intro low high h; simpa [lcpLoopAux] using h
  | succ fuel ih =>
    intro low high h
    by_cases hlt : low < high
    · simp only [lcpLoopAux, if_pos hlt]
      split
      · next hcp => exact ih _ high hcp
      · exact ih low _ h
    · simpa [lcpLoopAux, hlt] using h

theorem longestSharedLen_le (ks : List Bytes) :
    ∀ k ∈ ks, longestSharedLen ks ≤ k.length := by
  intro k hk
  unfold longestSharedLen lcpLoop
  have hne : ks.isEmpty = false := by
    cases ks with
    | nil => simp at hk
    | cons a l => rfl
  rw [hne]
  simp only [Bool.false_eq_true, if_false]
  have := (lcpLoopAux_bounds ks (minKeyLen ks - 0) 0 (minKeyLen ks) (by omega)).2
  calc lcpLoopAux ks (minKeyLen ks - 0) 0 (minKeyLen ks) ≤ minKeyLen ks := this
    _ ≤ k.length := minKeyLen_le ks k hk

theorem longestSharedLen_common (ks : List Bytes) :
    isCommonPre ks (longestSharedLen ks) = true := by
  unfold longestSharedLen lcpLoop
  cases hks : ks.isEmpty with
  | true => simpa using isCommonPre_zero ks
  | false =>
    simp only [Bool.false_eq_true, if_false]
    exact lcpLoopAux_common ks _ 0 (minKeyLen ks) (isCommonPre_zero ks)

theorem binarySearchByAux_found {α : Type} (f : α → Ordering) (xs : List α) (d : α) :
    ∀ (fuel left right m : Nat),
      binarySearchByAux f xs d fuel left right = .found m →
      left ≤ m ∧ m < right ∧ f (xs.getD m d) = .eq := by
  intro fuel
  induction fuel with
  | zero =>
    intro l r m h
    simp [binarySearchByAux] at h
  | succ fuel ih =>
    intro l r m h
    by_cases hlt : l < r
    · simp only [binarySearchByAux, if_pos hlt] at h
      split at h
      · obtain ⟨h1, h2, h3⟩ := ih _ _ _ h
        exact ⟨by omega, h2, h3⟩
      · obtain ⟨h1, h2, h3⟩ := ih _ _ _ h
        exact ⟨h1, by omega, h3⟩
      · next heq =>
        have hm : l + (r - l) / 2 = m := by
          injection h
        subst hm
        exact ⟨by omega, by omega, heq⟩
    · simp [binarySearchByAux, hlt] at h

theorem blockBinarySearch_found {T : Type} [Inhabited T] (b : Block T) (key : Bytes)
    (m : Nat) (h : b.binarySearch key = .found m) :
    m < b.vecEntry.length ∧
      blockCompareAt b key (b.vecEntry.getD m (0, default)) = .eq := by
  obtain ⟨_, h2, h3⟩ := binarySearchByAux_found (blockCompareAt b key) b.vecEntry
    (0, default) (b.vecEntry.length + 1) 0 b.vecEntry.length m h
  exact ⟨h2, h3⟩

theorem sharedLens_getD (KS : List Bytes) (itv : Nat) (hitv : 0 < itv) (q : Nat) :
    (shardingSharedLen KS itv).getD q 0 =
      longestSharedLen ((KS.drop (q * itv)).take itv) := by
  unfold shardingSharedLen
  rw [List.getD_eq_getElem?_getD, List.getElem?_map]
  cases hL : (chunksOf itv KS)[q]? with
  | some c =>
    have hc : c = (KS.drop (q * itv)).take itv := by
      have hspec := chunksOf_getD itv hitv KS q
      rw [List.getD_eq_getElem?_getD, hL] at hspec
      simpa using hspec
    simp [hc]
  | none =>
    have hspec := chunksOf_getD itv hitv KS q
    rw [List.getD_eq_getElem?_getD, hL] at hspec
    simp only [Option.getD_none] at hspec
    rw [← hspec]
    simp [longestSharedLen]

theorem mkValueBlock_get? (kvs : List (Bytes × Option Bytes)) (itv i : Nat)
    (kv : Bytes × Option Bytes) (hq : kvs.get? i = some kv) :
    (mkValueBlock kvs itv).vecEntry.get? i =
      some (i, entrySpec (shardingSharedLen (kvs.map Prod.fst) itv) itv (i, kv)) := by
  rw [mkValueBlock_vecEntry, List.get?_map]
  rw [show kvs.enum = List.enumFrom 0 kvs from rfl, enumFrom_get?, hq]
  simp

theorem mkValueBlock_length (kvs : List (Bytes × Option Bytes)) (itv : Nat) :
    (mkValueBlock kvs itv).vecEntry.length = kvs.length := by
  rw [mkValueBlock_vecEntry]
  simp [List.enum_length]

theorem mkValueBlock_restart (kvs : List (Bytes × Option Bytes)) (itv : Nat) :
    (mkValueBlock kvs itv).restartInterval = itv :=
  rfl

theorem bytesLt_iff (a b : Bytes) : bytesLt a b = true ↔ cmpBytes a b = .lt := by
  simp [bytesLt]

theorem pairwise_bytesLt_get?_inj (KS : List Bytes)
    (hs : KS.Pairwise (fun a b => bytesLt a b)) :
    ∀ (m j : Nat) (x : Bytes), KS.get? m = some x → KS.get? j = some x → m = j := by
  have hgen : ∀ (m j : Nat) (x : Bytes), m < j →
      KS.get? m = some x → KS.get? j = some x → False := by
    intro m j x hmj hm hj
    obtain ⟨hmlen, hmx⟩ := List.get?_eq_some.mp hm
    obtain ⟨hjlen, hjx⟩ := List.get?_eq_some.mp hj
    have hlt := List.pairwise_iff_get.mp hs ⟨m, hmlen⟩ ⟨j, hjlen⟩ hmj
    rw [hmx, hjx] at hlt
    rw [bytesLt_iff, cmpBytes_self x] at hlt
    cases hlt
  intro m j x hm hj
  rcases Nat.lt_trichotomy m j with h | h | h
  · exact absurd (hgen m j x h hm hj) (fun hc => hc)
  · exact h
  · exact absurd (hgen j m x h hj hm) (fun hc => hc)

theorem tombstone_keys (kvs : List (Bytes × Option Bytes)) :
    (tombstoneEmpties kvs).map Prod.fst = kvs.map Prod.fst := by
  unfold tombstoneEmpties
  rw [List.map_map]
  rfl

theorem blockCompareAt_sound (kvs : List (Bytes × Option Bytes)) (itv : Nat)
    (hitv : 0 < itv)
    (hsorted : (kvs.map Prod.fst).Pairwise (fun a b => bytesLt a b))
    (k : Bytes) (i : Nat) (kv : Bytes × Option Bytes)
    (hq : kvs.get? i = some kv)
    (hcomp : blockCompareAt (mkValueBlock kvs itv) k
      ((mkValueBlock kvs itv).vecEntry.getD i ((0 : Nat), default)) = .eq) :
    kv.1 = k := by
  have hgetD : (mkValueBlock kvs itv).vecEntry.getD i ((0 : Nat), default) =
      (i, entrySpec (shardingSharedLen (kvs.map Prod.fst) itv) itv (i, kv)) := by
    rw [List.getD_eq_getElem?_getD, ← List.get?_eq_getElem?,
      mkValueBlock_get? kvs itv i kv hq]
    rfl
  rw [hgetD] at hcomp
  rw [blockCompareAt] at hcomp
  dsimp only [entrySpec] at hcomp
  by_cases hmod : i % itv = 0
  · rw [if_pos hmod] at hcomp
    rw [if_neg (by omega : ¬ ((0 : Nat) > 0)), List.drop_zero] at hcomp
    rw [ordering_swap_eq_iff, cmpBytes_eq_iff] at hcomp
    exact hcomp.symm
  · rw [if_neg hmod] at hcomp
    by_cases hs0 : (shardingSharedLen (kvs.map Prod.fst) itv).getD (i / itv) 0 = 0
    · rw [hs0] at hcomp
      rw [if_neg (by omega : ¬ ((0 : Nat) > 0)), List.drop_zero] at hcomp
      rw [ordering_swap_eq_iff, cmpBytes_eq_iff] at hcomp
      exact hcomp.symm
    · have hspos : 0 < (shardingSharedLen (kvs.map Prod.fst) itv).getD (i / itv) 0 :=
        Nat.pos_of_ne_zero hs0
      rw [if_pos hspos] at hcomp
      have hchunk : (shardingSharedLen (kvs.map Prod.fst) itv).getD (i / itv) 0 =
          longestSharedLen (((kvs.map Prod.fst).drop ((i / itv) * itv)).take itv) :=
        sharedLens_getD (kvs.map Prod.fst) itv hitv (i / itv)
      have hKSi : (kvs.map Prod.fst).get? i = some kv.1 := by
        rw [List.get?_map, hq]
        rfl
      have hilen : i < (kvs.map Prod.fst).length :=
        (List.get?_eq_some.mp hKSi).1
      have hidx : (i / itv) * itv + i % itv = i := by
        rw [Nat.mul_comm]
        exact Nat.div_add_mod i itv
      have hmodlt : i % itv < itv := Nat.mod_lt i hitv
      have hchunki : (((kvs.map Prod.fst).drop ((i / itv) * itv)).take itv).get?
          (i % itv) = some kv.1 := by
        rw [List.get?_take hmodlt, List.get?_drop, hidx, hKSi]
      have hmem_kv : kv.1 ∈ ((kvs.map Prod.fst).drop ((i / itv) * itv)).take itv :=
        List.get?_mem hchunki
      have hrlt : (i / itv) * itv < i := by omega
      have hrmod : ((i / itv) * itv) % itv = 0 := Nat.mul_mod_left _ _
      have hrlen : (i / itv) * itv < kvs.length := by
        have hml : (kvs.map Prod.fst).length = kvs.length := List.length_map _ _
        omega
      obtain ⟨kvr, hqr⟩ : ∃ kvr, kvs.get? ((i / itv) * itv) = some kvr :=
        ⟨kvs.get ⟨(i / itv) * itv, hrlen⟩, List.get?_eq_get hrlen⟩
      have hKSr : (kvs.map Prod.fst).get? ((i / itv) * itv) = some kvr.1 := by
        rw [List.get?_map, hqr]
        rfl
      have hchunk0 : (((kvs.map Prod.fst).drop ((i / itv) * itv)).take itv).get? 0 =
          some kvr.1 := by
        rw [List.get?_take hitv, List.get?_drop, Nat.add_zero, hKSr]
      obtain ⟨f, rest, hcons⟩ : ∃ f rest,
          ((kvs.map Prod.fst).drop ((i / itv) * itv)).take itv = f :: rest := by
        cases hcc : ((kvs.map Prod.fst).drop ((i / itv) * itv)).take itv with
        | nil =>
          rw [hcc] at hchunk0
          simp at hchunk0
        | cons f rest => exact ⟨f, rest, rfl⟩
      have hf : f = kvr.1 := by
        rw [hcons] at hchunk0
        simpa using hchunk0
      have hcommon := longestSharedLen_common
        (((kvs.map Prod.fst).drop ((i / itv) * itv)).take itv)
      rw [hcons] at hcommon
      have hpre := isCommonPre_spec f rest (longestSharedLen (f :: rest)) hcommon
      have htake : f.take ((shardingSharedLen (kvs.map Prod.fst) itv).getD (i / itv) 0) =
          kv.1.take ((shardingSharedLen (kvs.map Prod.fst) itv).getD (i / itv) 0) := by
        rw [hchunk, hcons]
        exact hpre kv.1 (by rw [← hcons]; exact hmem_kv)
      have hle : (shardingSharedLen (kvs.map Prod.fst) itv).getD (i / itv) 0 ≤
          kv.1.length := by
        rw [hchunk, hcons]
        exact longestSharedLen_le (f :: rest) kv.1 (by rw [← hcons]; exact hmem_kv)
      have hgetDr : (mkValueBlock kvs itv).vecEntry.getD ((i / itv) * itv)
          ((0 : Nat), default) =
          ((i / itv) * itv,
            entrySpec (shardingSharedLen (kvs.map Prod.fst) itv) itv
              ((i / itv) * itv, kvr)) := by
        rw [List.getD_eq_getElem?_getD, ← List.get?_eq_getElem?,
          mkValueBlock_get? kvs itv ((i / itv) * itv) kvr hqr]
        rfl
      have hskp : ∀ s', sharedKeyPre (mkValueBlock kvs itv) i s' = kvr.1.take s' := by
        intro s'
        rw [sharedKeyPre, mkValueBlock_restart]
        have hsub : i - i % itv = (i / itv) * itv := by omega
        rw [hsub, hgetDr]
        show (entrySpec (shardingSharedLen (kvs.map Prod.fst) itv) itv
          ((i / itv) * itv, kvr)).key.take s' = kvr.1.take s'
        dsimp only [entrySpec]
        rw [if_pos hrmod, List.drop_zero]
      rw [ordering_swap_eq_iff, ordering_then_eq_iff] at hcomp
      obtain ⟨h1, h2⟩ := hcomp
      rw [cmpBytes_eq_iff] at h1 h2
      rw [hskp] at h1
      by_cases hk : (shardingSharedLen (kvs.map Prod.fst) itv).getD (i / itv) 0 ≤
          k.length
      · rw [Nat.min_eq_left hk] at h1 h2
        have hcalc : k = kv.1 := by
          calc k = k.take ((shardingSharedLen (kvs.map Prod.fst) itv).getD (i / itv) 0)
                ++ k.drop ((shardingSharedLen (kvs.map Prod.fst) itv).getD (i / itv) 0) :=
              (List.take_append_drop _ _).symm
            _ = kvr.1.take ((shardingSharedLen (kvs.map Prod.fst) itv).getD (i / itv) 0)
                ++ kv.1.drop ((shardingSharedLen (kvs.map Prod.fst) itv).getD (i / itv) 0) := by
              rw [h1, h2]
            _ = kv.1.take ((shardingSharedLen (kvs.map Prod.fst) itv).getD (i / itv) 0)
                ++ kv.1.drop ((shardingSharedLen (kvs.map Prod.fst) itv).getD (i / itv) 0) := by
              rw [← hf, htake]
            _ = kv.1 := List.take_append_drop _ _
        exact hcalc.symm
      · push_neg at hk
        rw [Nat.min_eq_right (Nat.le_of_lt hk)] at h1 h2
        rw [List.take_length] at h1
        rw [List.drop_length] at h2
        have hlen2 : kv.1.length ≤
            (shardingSharedLen (kvs.map Prod.fst) itv).getD (i / itv) 0 := by
          rw [← List.drop_eq_nil_iff_le, ← h2]
        have hlen3 : kv.1.length =
            (shardingSharedLen (kvs.map Prod.fst) itv).getD (i / itv) 0 :=
          Nat.le_antisymm hlen2 hle
        have hkv_take : kv.1 = kvr.1.take
            ((shardingSharedLen (kvs.map Prod.fst) itv).getD (i / itv) 0) := by
          rw [hf] at htake
          rw [htake, ← hlen3, List.take_length]
        exfalso
        have hr' : (i / itv) * itv < (kvs.map Prod.fst).length := by
          have hml : (kvs.map Prod.fst).length = kvs.length := List.length_map _ _
          omega
        have hgr : (kvs.map Prod.fst).get ⟨(i / itv) * itv, hr'⟩ = kvr.1 :=
          Option.some.inj ((List.get?_eq_get hr').symm.trans hKSr)
        have hgi : (kvs.map Prod.fst).get ⟨i, hilen⟩ = kv.1 :=
          Option.some.inj ((List.get?_eq_get hilen).symm.trans hKSi)
        have hlt := List.pairwise_iff_get.mp hsorted ⟨(i / itv) * itv, hr'⟩ ⟨i, hilen⟩ hrlt
        rw [hgr, hgi, bytesLt_iff] at hlt
        have hswap : cmpBytes kv.1 kvr.1 = .gt := by
          rw [cmpBytes_symm, hlt]
          rfl
        rw [hkv_take] at hswap
        exact cmpBytes_take_self kvr.1 _ hswap

theorem transferGens_map_fst (gens : List Int) :
    ∀ (j : Nat) (l : List (Nat × List Int)),
      (transferGens gens j l).map Prod.fst = l.map Prod.fst := by
  intro j
  induction j with
  | zero =>
    intro l
    cases l <;> simp [transferGens]
  | succ j ih =>
    intro l
    cases l with
    | nil => simp [transferGens]
    | cons e rest => simp [transferGens, ih]

theorem map_eraseIdx {α β : Type} (f : α → β) :
    ∀ (l : List α) (i : Nat), (l.eraseIdx i).map f = (l.map f).eraseIdx i := by
  intro l
  induction l with
  | nil => intro i; simp [List.eraseIdx]
  | cons x xs ih =>
    intro i
    cases i with
    | zero => simp [List.eraseIdx]
    | succ j => simp [List.eraseIdx, ih]

theorem findIndexWithVerNum_spec :
    ∀ (l : List (Nat × List Int)) (vn i : Nat),
      findIndexWithVerNum l vn = some i → ∃ e, l.get? i = some e ∧ e.1 = vn := by
  intro l
  induction l with
  | nil => intro vn i h; simp [findIndexWithVerNum] at h
  | cons e rest ih =>
    intro vn i h
    by_cases he : e.1 = vn
    · simp [findIndexWithVerNum, he] at h
      exact ⟨e, by simp [← h], he⟩
    · simp [findIndexWithVerNum, he] at h
      obtain ⟨i', hi', rfl⟩ := h
      obtain ⟨e', hget, hp⟩ := ih vn i' hi'
      exact ⟨e', by simpa using hget, hp⟩

theorem transferGens_flatten :
    ∀ (l : List (Nat × List Int)) (i : Nat) (e : Nat × List Int),
      l.get? i = some e → 1 ≤ i →
      ((transferGens e.2 (i - 1) (l.eraseIdx i)).map Prod.snd).flatten =
        (l.map Prod.snd).flatten := by
  intro l
  induction l with
  | nil => intro i e h _; simp at h
  | cons x xs ih =>
    intro i e h h1
    match i, h1 with
    | 1, _ =>
      simp only [List.get?] at h
      cases xs with
      | nil => simp at h
      | cons y ys =>
        simp only [List.get?] at h
        cases h
        simp [List.eraseIdx, transferGens, List.append_assoc]
    | (j + 2), _ =>
      have hx : xs.get? (j + 1) = some e := h
      have ihr := ih (j + 1) e hx (by omega)
      simp only [Nat.add_sub_cancel] at ihr
      simp only [List.eraseIdx, transferGens, List.map_cons, List.flatten_cons,
        Nat.add_sub_cancel]
      rw [ihr]

theorem cleanerStep_clean_fst_sublist (s : CleanerState) (vn : Nat) :
    ((cleanerStep s (.clean vn)).delGens.map Prod.fst).Sublist
      (s.delGens.map Prod.fst) := by
  cases hfind : findIndexWithVerNum s.delGens vn with
  | none => simp only [cleanerStep, hfind]; exact List.Sublist.refl _
  | some i =>
    have hfst : (cleanerStep s (.clean vn)).delGens.map Prod.fst =
        (s.delGens.map Prod.fst).eraseIdx i := by
      simp only [cleanerStep, hfind]
      by_cases hi : i = 0
      · simp [hi, map_eraseIdx]
      · simp [hi, transferGens_map_fst, map_eraseIdx]
    rw [hfst]
    exact List.eraseIdx_sublist _ i

theorem foldl_cleaner_sorted :
    ∀ (msgs : List CleanTag) (s : CleanerState),
      (s.delGens.map Prod.fst).Pairwise (· < ·) →
      (∀ x ∈ s.delGens.map Prod.fst, ∀ y ∈ addVerNums msgs, x < y) →
      AddsIncreasing msgs →
      ((msgs.foldl cleanerStep s).delGens.map Prod.fst).Pairwise (· < ·) := by
  intro msgs
  induction msgs with
  | nil => intro s hs _ _; simpa using hs
  | cons m rest ih =>
    intro s hs hfut hinc
    simp only [List.foldl_cons]
    cases m with
    | add vn gens =>
      have hvns : addVerNums (CleanTag.add vn gens :: rest) = vn :: addVerNums rest := by
        simp [addVerNums]
      have hinc' : (vn :: addVerNums rest).Pairwise (· < ·) := by
        simpa [AddsIncreasing, hvns] using hinc
      have hfut' : ∀ x ∈ s.delGens.map Prod.fst, ∀ y ∈ vn :: addVerNums rest, x < y := by
        simpa [hvns] using hfut
      apply ih
      · simp only [cleanerStep, List.map_append]
        rw [List.pairwise_append]
        refine ⟨hs, by simp, ?_⟩
        intro x hx y hy
        have hyv : y = vn := by simpa using hy
        rw [hyv]
        exact hfut' x hx vn (List.mem_cons_self _ _)
      · intro x hx y hy
        simp only [cleanerStep, List.map_append, List.mem_append] at hx
        rcases hx with hx | hx
        · exact hfut' x hx y (List.mem_cons_of_mem _ hy)
        · simp at hx
          subst hx
          exact (List.pairwise_cons.mp hinc').1 y hy
      · simpa [AddsIncreasing] using (List.pairwise_cons.mp hinc').2
    | clean vn =>
      have hvns : addVerNums (CleanTag.clean vn :: rest) = addVerNums rest := by
        simp [addVerNums]
      have hinc' : AddsIncreasing rest := by
        simpa [AddsIncreasing, hvns] using hinc
      have hfut' : ∀ x ∈ s.delGens.map Prod.fst, ∀ y ∈ addVerNums rest, x < y := by
        simpa [hvns] using hfut
      have hsub := cleanerStep_clean_fst_sublist s vn
      exact ih _ (List.Pairwise.sublist hsub hs) (fun x hx => hfut' x (hsub.subset hx)) hinc'

theorem runCleaner_sorted (msgs : List CleanTag) (h : AddsIncreasing msgs) :
    ((runCleaner msgs).delGens.map Prod.fst).Pairwise (· < ·) :=
  foldl_cleaner_sorted msgs ⟨[], []⟩ (by simp) (by simp) h

/-- C1 (code bug).  The claim says that after `set(k,v1); flush; set(k,v2);
flush` the read path yields the value of the most recent mutation,
`Some(v2)`, even when an older and a newer SSTable both contain `k`.  On
the code, `LsmStore::get` iterates the manifest's `BTreeMap<u64, SsTable>`
in ascending gen order, so with an empty MemTable the *oldest* SSTable
containing `k` decides: in the state reached by the above trace the two
SSTables carry gens 1 and 2, the newer one alone would answer `Some(v2)`,
yet `get` returns `Some(v1)`. -/
theorem claim_c1_code_bug :
    lsmGet (lsmFlushSpec (lsmSet (lsmFlushSpec (lsmSet ⟨[], [], []⟩ [107] [49]))
      [107] [50])) [107] = some [49] ∧
    (lsmFlushSpec (lsmSet (lsmFlushSpec (lsmSet ⟨[], [], []⟩ [107] [49]))
      [107] [50])).ssTables.map Prod.fst = [1, 2] ∧
    ssTablesQuery ((lsmFlushSpec (lsmSet (lsmFlushSpec (lsmSet ⟨[], [], []⟩ [107] [49]))
      [107] [50])).ssTables.drop 1) [107] = some [50] ∧
    some ([49] : Bytes) ≠ some ([50] : Bytes) := by
  decide

/-- C2 (code bug).  The claim says that when the single level-`L`
candidate's query misses, `find_data_for_ss_tables` continues with level
`L+1`, so a key stored only in a deeper level is still found.  On the code,
as soon as a level in 1..6 is nonempty the function returns that one
table's query result — also on a miss.  In a version whose level 1 holds a
table without the key and whose level 2 holds the key, the lookup returns
`None` although level 2's own query answers `Some [99]`. -/
theorem claim_c2_code_bug :
    findDataForSsTables
      ⟨[[], [⟨[10], [20], 1⟩], [⟨[30], [40], 2⟩], [], [], [], []],
        fun g => if g = 1 then some (fun _ => none)
          else if g = 2 then some (fun k => if k == [30] then some [99] else none)
          else none⟩ [30] = none ∧
    ((fun g => if g = (1 : Int) then some (fun _ => (none : Option Bytes))
        else if g = 2 then some (fun k => if k == [30] then some [99] else none)
        else none) 2).map (fun q => q [30]) = some (some [99]) ∧
    Scope.meetWithKey ⟨[30], [40], 2⟩ [30] = true := by
  refine ⟨by decide, by decide, by decide⟩

/-- C3 (code bug).  The claim says a major compaction step at level `L`
emits `DeleteFile(B.gens, L+1)` for the overlap set `B` that resides at
level `L+1`.  On the code (`compactor.rs`), the emitted batch is
`NewFile(new, L+1, index)`, `DeleteFile(A.gens, L)`,
`DeleteFile(B.gens, L)` — the third edit names level `L`, not `L+1`: here
gen 11 lives in level 1, yet the batch deletes it from level 0 and contains
no `DeleteFile(_, 1)` edit at all. -/
theorem claim_c3_code_bug :
    majorCompaction
      ⟨[[⟨[16], [32], 1⟩, ⟨[21], [48], 2⟩], [⟨[5], [24], 11⟩], [], [], [], [], []],
        fun _ => true⟩ ⟨2, 1, 2⟩ (fun _ => [100]) 0
      [.newFile [5] 0 0, .lastSequenceId 42] =
      .ok [.newFile [5] 0 0, .lastSequenceId 42,
           .newFile [100] 1 0, .deleteFile [1, 2] 0, .deleteFile [11] 0] ∧
    ([[⟨[16], [32], 1⟩, ⟨[21], [48], 2⟩], [⟨[5], [24], 11⟩], [], [], [], [],
        ([] : List Scope)]).getD 1 [] = [⟨[5], [24], 11⟩] ∧
    VersionEdit.deleteFile [11] 1 ∉
      [VersionEdit.newFile [5] 0 0, VersionEdit.lastSequenceId 42,
       VersionEdit.newFile [100] 1 0, VersionEdit.deleteFile [1, 2] 0,
       VersionEdit.deleteFile [11] 0] := by
  refine ⟨by decide, by decide, by decide⟩

/-- C4 (counterexample).  The claim quantifies over `Add`/`Clean` messages
received in any order.  With out-of-order `Add`s the queue is not sorted by
version number: after `Add(5,[7]); Add(3,[]); Clean(5)` the entry of
version 5 sits at the head, so its gen 7 is physically deleted although the
entry of the older version 3 is still present in the queue. -/
theorem claim_c4_counterexample :
    runCleaner [.add 5 [7], .add 3 [], .clean 5] =
      { delGens := [(3, [])], deleted := [7] } ∧ (3 : Nat) < 5 := by
  decide

/-- C5 (code bug).  The claim says decoding fails with `CrcMismatch`
exactly when the stored 4-byte trailer differs from the CRC-32 of the
preceding bytes.  `Block::from_raw` inverts the guard (`if hash ==
stored → error`) and hashes the *whole* buffer: this buffer's trailer
(value 2093357739) differs from the CRC-32 of its first six bytes
(2093357738), so decoding should fail, yet `from_raw` accepts it and
returns a block. -/
theorem claim_c5_code_bug :
    leToU32 (List.drop 6 [16, 1, 0, 97, 1, 98, 171, 26, 198, 124]) ≠
      crc32 (List.take 6 [16, 1, 0, 97, 1, 98, 171, 26, 198, 124]) ∧
    fromRaw Value [16, 1, 0, 97, 1, 98, 171, 26, 198, 124] =
      .ok ⟨16, [(0, ⟨1, 0, [97], ⟨1, some [98]⟩⟩)]⟩ := by
  refine ⟨by decide, by decide⟩

/-- C6 (counterexample).  The claim includes blocks storing the empty byte
string as a value.  The `Value` codec writes only `varint(0)` for such a
value and reads a zero length back as a tombstone, so
`decode(encode(block))` differs from the block: the stored
`Some []` comes back as `None` even with `Compress = None`. -/
theorem claim_c6_counterexample :
    Block.decode Value ⟨id, id⟩ .noCompress
        (Block.encode ⟨id, id⟩ .noCompress (mkValueBlock [([97], some [])] 16)) =
      .ok (mkValueBlock [([97], none)] 16) ∧
    mkValueBlock [([97], none)] 16 ≠ mkValueBlock [([97], some [])] 16 := by
  refine ⟨by decide, by decide⟩

/-- C6 (amended).  For every block built from a strictly-increasing
key/value sequence whose present values are nonempty byte strings, and for
both compression modes (`None`, and `LZ4` for any codec whose decompression
inverts its compression), decoding the encoding returns the original block
— provided the encoding does not trip the decoder's inverted CRC guard,
i.e. the CRC-32 of the whole raw buffer differs from the CRC-32 of its
body (see C5: `from_raw` rejects exactly when they coincide).  A stored
empty-string value is excluded: it decodes to a tombstone (see the
counterexample and C10). -/
theorem claim_c6_amended (c : Lz4Codec) (ct : CompressType)
    (kvs : List (Bytes × Option Bytes)) (itv : Nat)
    (hcodec : ∀ x, c.decompress (c.compress x) = x)
    (_hitv : 0 < itv)
    (_hkeys : StrictKeys kvs)
    (hempty : ∀ p ∈ kvs, p.2 ≠ some [])
    (hb : ∀ p ∈ kvs, (∀ x ∈ p.1, x < 256) ∧ (∀ x ∈ p.2.getD [], x < 256))
    (hguard : crc32 (toRaw (mkValueBlock kvs itv)) ≠
      crc32 (toRawBody (mkValueBlock kvs itv))) :
    Block.decode Value c ct (Block.encode c ct (mkValueBlock kvs itv)) =
      .ok (mkValueBlock kvs itv) := by
  have htomb : tombstoneEmpties kvs = kvs := by
    unfold tombstoneEmpties
    have hpt : ∀ p ∈ kvs, (p.1, if p.2 = some [] then none else p.2) = p := by
      intro p hp
      rw [if_neg (hempty p hp)]
    rw [List.map_congr_left hpt]
    simp
  have hdec := mkValueBlock_decode kvs itv hb hguard
  rw [htomb] at hdec
  cases ct with
  | noCompress => simpa [Block.encode, Block.decode] using hdec
  | lz4 => simpa [Block.encode, Block.decode, hcodec] using hdec

/-- C6 (witness). -/
theorem claim_c6_witness :
    Block.decode Value ⟨id, id⟩ .lz4
        (Block.encode ⟨id, id⟩ .lz4 (mkValueBlock [([107], some [118])] 16)) =
      .ok (mkValueBlock [([107], some [118])] 16) :=
  claim_c6_amended ⟨id, id⟩ .lz4 [([107], some [118])] 16 (fun _ => rfl)
    (by decide) (by decide) (by decide) (by decide) (by decide)

/-- C7 (counterexample).  The claim says a buffered `remove(k)` masks older
committed values, making the transaction's `get(k)` return `None`.  On the
code, `Transaction::get` reads the buffer through `get_value_clone`, which
is `None` for a tombstone, so the lookup falls through: with a buffered
`Remove` and a MemTable value `[9]`, `get` returns `Some [9]`, not
`None`. -/
theorem claim_c7_counterexample :
    (fun k' => if k' = ([1] : Bytes) then some (CommandData.remove [1]) else none) [1] =
      some (CommandData.remove [1]) ∧
    txnGet (fun k' => if k' = [1] then some (.remove [1]) else none)
      (fun k' => if k' = [1] then some [9] else none) (fun _ => none) [1] = some [9] := by
  refine ⟨by decide, by decide⟩

/-- C7 (amended).  Within an open transaction the write buffer is consulted
first, but only a buffered `set` decides the result: `get` returns its
value regardless of the lower layers, while a buffered `remove` does not
short-circuit — the lookup falls through to the MemTable at the captured
sequence and then to the captured Version, so an older committed value is
returned if one exists. -/
theorem claim_c7_amended (buf : Bytes → Option CommandData)
    (memFind verFind : Bytes → Option Bytes) (k v : Bytes) :
    (buf k = some (.set k v) → txnGet buf memFind verFind k = some v) ∧
    (buf k = some (.remove k) →
      txnGet buf memFind verFind k =
        match memFind k with
        | some w => some w
        | none => verFind k) := by
  constructor
  · intro h
    simp [txnGet, h, CommandData.getValueClone]
  · intro h
    simp [txnGet, h, CommandData.getValueClone]

/-- C7 (witness). -/
theorem claim_c7_witness :
    txnGet (fun _ => some (.set [1] [7])) (fun _ => some [9]) (fun _ => none) [1] =
      some [7] ∧
    txnGet (fun _ => some (.remove [1])) (fun _ => some [9]) (fun _ => none) [1] =
      some [9] :=
  ⟨(claim_c7_amended (fun _ => some (.set [1] [7])) (fun _ => some [9]) (fun _ => none)
      [1] [7]).1 rfl,
   (claim_c7_amended (fun _ => some (.remove [1])) (fun _ => some [9]) (fun _ => none)
      [1] [7]).2 rfl⟩

/-- C8 (confirmed).  `remove(k)` fails with `KeyNotFound` exactly on the
keys where `get` currently returns `None`, and in that case the store state
(MemTable, SSTables and WAL) is returned untouched; whenever `get` returns
a value, `remove` succeeds and appends a tombstone record.  The same
contract holds for `Transaction::remove` against its buffer view. -/
theorem claim_c8 (s : LsmStoreState) (k : Bytes) (buf : Bytes → Option CommandData)
    (memFind verFind : Bytes → Option Bytes) :
    (lsmGet s k = none → lsmRemove s k = (.error .keyNotFound, s)) ∧
    (∀ v, lsmGet s k = some v →
      lsmRemove s k = (.ok (), appendCmdData s (.remove k))) ∧
    (txnGet buf memFind verFind k = none →
      txnRemove buf memFind verFind k = .error .keyNotFound) ∧
    (∀ v, txnGet buf memFind verFind k = some v →
      txnRemove buf memFind verFind k =
        .ok (fun k' => if k' = k then some (.remove k) else buf k')) := by
  refine ⟨fun h => ?_, fun v h => ?_, fun h => ?_, fun v h => ?_⟩
  · simp [lsmRemove, h]
  · simp [lsmRemove, h]
  · simp [txnRemove, h]
  · simp [txnRemove, h]

/-- C8 (witness). -/
theorem claim_c8_witness :
    lsmRemove ⟨[], [], []⟩ [1] = (.error .keyNotFound, ⟨[], [], []⟩) ∧
    lsmRemove ⟨[([1], .set [1] [5])], [], []⟩ [1] =
      (.ok (), appendCmdData ⟨[([1], .set [1] [5])], [], []⟩ (.remove [1])) ∧
    txnRemove (fun _ => none) (fun _ => none) (fun _ => none) [1] =
      .error .keyNotFound :=
  ⟨(claim_c8 ⟨[], [], []⟩ [1] (fun _ => none) (fun _ => none) (fun _ => none)).1
      (by decide),
   (claim_c8 ⟨[([1], .set [1] [5])], [], []⟩ [1] (fun _ => none) (fun _ => none)
      (fun _ => none)).2.1 [5] (by decide),
   (claim_c8 ⟨[], [], []⟩ [1] (fun _ => none) (fun _ => none) (fun _ => none)).2.2.1
      (by decide)⟩

/-- C4 (amended).  Provided the `Add` messages arrive with strictly
increasing version numbers — as `Version::apply` produces them — the
Cleaner never physically deletes gens queued under `vn` while an entry with
an older version number is still in the queue: on `Clean(vn)`, if some
queued entry is older, nothing is deleted and all queued gens are preserved
(the removed entry's gens are transferred to its predecessor); the gens are
physically deleted exactly when `vn`'s entry is the oldest one, i.e. the
head of the queue. -/
theorem claim_c4_amended (msgs : List CleanTag) (h : AddsIncreasing msgs) (vn : Nat) :
    ((∃ e ∈ (runCleaner msgs).delGens, e.1 < vn) →
      (cleanerStep (runCleaner msgs) (.clean vn)).deleted = (runCleaner msgs).deleted ∧
      ((cleanerStep (runCleaner msgs) (.clean vn)).delGens.map Prod.snd).flatten =
        ((runCleaner msgs).delGens.map Prod.snd).flatten) ∧
    (∀ e₀ rest, (runCleaner msgs).delGens = e₀ :: rest → e₀.1 = vn →
      (cleanerStep (runCleaner msgs) (.clean vn)).deleted =
        (runCleaner msgs).deleted ++ e₀.2 ∧
      (cleanerStep (runCleaner msgs) (.clean vn)).delGens = rest) := by
  have hsorted := runCleaner_sorted msgs h
  constructor
  · rintro ⟨e, he, helt⟩
    cases hfind : findIndexWithVerNum (runCleaner msgs).delGens vn with
    | none => simp [cleanerStep, hfind]
    | some i =>
      obtain ⟨ent, hget, hent⟩ := findIndexWithVerNum_spec _ vn i hfind
      have hi : i ≠ 0 := by
        rintro rfl
        obtain ⟨j, hj⟩ := List.mem_iff_get?.mp he
        rcases Nat.eq_zero_or_pos j with rfl | hjpos
        · rw [hget] at hj
          cases hj
          omega
        · have hq := List.pairwise_map.mp hsorted
          rw [List.pairwise_iff_get] at hq
          have hlen0 : 0 < (runCleaner msgs).delGens.length := by
            cases hL : (runCleaner msgs).delGens with
            | nil => rw [hL] at hget; simp at hget
            | cons a l => simp
          have hlenj : j < (runCleaner msgs).delGens.length := by
            by_contra hcon
            rw [List.get?_eq_none.mpr (by omega)] at hj
            cases hj
          have hlt := hq ⟨0, hlen0⟩ ⟨j, hlenj⟩ hjpos
          rw [List.get?_eq_get hlen0] at hget
          rw [List.get?_eq_get hlenj] at hj
          cases hget
          cases hj
          omega
      simp only [cleanerStep, hfind, if_neg hi]
      refine ⟨by trivial, ?_⟩
      have hgens : ((runCleaner msgs).delGens.getD i (0, [])).2 = ent.2 := by
        rw [List.getD_eq_getElem?_getD, ← List.get?_eq_getElem?, hget]
        rfl
      rw [hgens]
      exact transferGens_flatten _ i ent hget (by omega)
  · intro e₀ rest hq hvn
    simp only [cleanerStep, hq]
    have : findIndexWithVerNum (e₀ :: rest) vn = some 0 := by
      simp [findIndexWithVerNum, hvn]
    simp [this, List.eraseIdx]

/-- C4 (witness). -/
theorem claim_c4_witness :
    (∃ e ∈ (runCleaner [.add 1 [5], .add 2 [6]]).delGens, e.1 < 2) ∧
    (cleanerStep (runCleaner [.add 1 [5], .add 2 [6]]) (.clean 2)).deleted =
      (runCleaner [.add 1 [5], .add 2 [6]]).deleted ∧
    ((cleanerStep (runCleaner [.add 1 [5], .add 2 [6]]) (.clean 2)).delGens.map
        Prod.snd).flatten =
      ((runCleaner [.add 1 [5], .add 2 [6]]).delGens.map Prod.snd).flatten :=
  ⟨by decide,
   (claim_c4_amended [.add 1 [5], .add 2 [6]] (by decide) 2).1 (by decide)⟩

/-- C9 (code bug).  `Scope::meet` is claimed to be a correct symmetric
overlap test.  The scopes `a = [[2],[3]]` and `b = [[1],[4]]` are nonempty
inclusive ranges and `b` strictly contains `a`, so they intersect — yet
`meet(a, b)` returns `false` while `meet(b, a)` returns `true`: the test
misses the containment case and is not symmetric. -/
theorem claim_c9_code_bug :
    Scope.meet ⟨[2], [3], 1⟩ ⟨[1], [4], 2⟩ = false ∧
    scopesIntersectSpec ⟨[2], [3], 1⟩ ⟨[1], [4], 2⟩ = true ∧
    bytesLe [2] [3] = true ∧ bytesLe [1] [4] = true ∧
    Scope.meet ⟨[1], [4], 2⟩ ⟨[2], [3], 1⟩ = true := by
  decide

/-- C10: in the block codec a written value equal to the empty byte string
is indistinguishable from a tombstone after one encode/decode cycle.
`Value::encode` writes only the varint length (0 for the empty string) and
decoding a zero length yields `None`, so a well-formed block of strictly
ascending keys holding `(k, Some [])` decodes — under either compression
mode, provided the inverted CRC guard is not tripped — to the block in
which every stored empty value has become a tombstone, and
`Block::<Value>::find` on the decoded block reports `None` for `k`. -/
theorem claim_c10 (c : Lz4Codec) (ct : CompressType)
    (kvs : List (Bytes × Option Bytes)) (itv : Nat) (k : Bytes)
    (hcodec : ∀ x, c.decompress (c.compress x) = x)
    (hitv : 0 < itv)
    (hkeys : StrictKeys kvs)
    (hmem : (k, some ([] : Bytes)) ∈ kvs)
    (hb : ∀ p ∈ kvs, (∀ x ∈ p.1, x < 256) ∧ (∀ x ∈ p.2.getD [], x < 256))
    (hguard : crc32 (toRaw (mkValueBlock kvs itv)) ≠
      crc32 (toRawBody (mkValueBlock kvs itv))) :
    Block.decode Value c ct (Block.encode c ct (mkValueBlock kvs itv)) =
      .ok (mkValueBlock (tombstoneEmpties kvs) itv) ∧
    Block.find (mkValueBlock (tombstoneEmpties kvs) itv) k = none := by
  have hdec := mkValueBlock_decode kvs itv hb hguard
  constructor
  · cases ct with
    | noCompress => simpa [Block.encode, Block.decode] using hdec
    | lz4 => simpa [Block.encode, Block.decode, hcodec] using hdec
  · have hsorted' : ((tombstoneEmpties kvs).map Prod.fst).Pairwise
        (fun a b => bytesLt a b) := by
      rw [tombstone_keys]
      exact List.pairwise_map.mpr hkeys
    obtain ⟨j, hj⟩ : ∃ j, kvs.get? j = some (k, some []) :=
      List.mem_iff_get?.mp hmem
    have hj' : (tombstoneEmpties kvs).get? j = some (k, none) := by
      unfold tombstoneEmpties
      rw [List.get?_map, hj]
      rfl
    cases hbs : (mkValueBlock (tombstoneEmpties kvs) itv).binarySearch k with
    | missing n => simp [Block.find, hbs]
    | found m =>
      obtain ⟨hmlt, hcomp⟩ := blockBinarySearch_found _ k m hbs
      have hmlen : m < (tombstoneEmpties kvs).length := by
        rw [mkValueBlock_length] at hmlt
        exact hmlt
      obtain ⟨kvm, hqm⟩ : ∃ kvm, (tombstoneEmpties kvs).get? m = some kvm :=
        ⟨_, List.get?_eq_get hmlen⟩
      have hkm : kvm.1 = k :=
        blockCompareAt_sound (tombstoneEmpties kvs) itv hitv hsorted' k m kvm hqm hcomp
      have hKSm : ((tombstoneEmpties kvs).map Prod.fst).get? m = some k := by
        rw [List.get?_map, hqm]
        simp [hkm]
      have hKSj : ((tombstoneEmpties kvs).map Prod.fst).get? j = some k := by
        rw [List.get?_map, hj']
        rfl
      have hmj : m = j := pairwise_bytesLt_get?_inj _ hsorted' m j k hKSm hKSj
      subst hmj
      have hkvm : kvm = (k, none) := Option.some.inj (hqm.symm.trans hj')
      have hgetDm : (mkValueBlock (tombstoneEmpties kvs) itv).vecEntry.getD m
          ((0 : Nat), default) =
          (m, entrySpec (shardingSharedLen ((tombstoneEmpties kvs).map Prod.fst) itv)
            itv (m, kvm)) := by
        rw [List.getD_eq_getElem?_getD, ← List.get?_eq_getElem?,
          mkValueBlock_get? _ itv m kvm hqm]
        rfl
      simp only [Block.find, hbs]
      rw [hgetDm, hkvm]
      rfl

/-- C10 (witness). -/
theorem claim_c10_witness :
    Block.decode Value ⟨id, id⟩ .lz4
        (Block.encode ⟨id, id⟩ .lz4
          (mkValueBlock [([97], some []), ([98], some [66])] 16)) =
      .ok (mkValueBlock (tombstoneEmpties [([97], some []), ([98], some [66])]) 16) ∧
    Block.find (mkValueBlock (tombstoneEmpties [([97], some []), ([98], some [66])]) 16)
      [97] = none :=
  claim_c10 ⟨id, id⟩ .lz4 [([97], some []), ([98], some [66])] 16 [97]
    (fun _ => rfl) (by decide) (by decide) (by decide) (by decide) (by decide)

end KipDB
